import Mathlib

/-!
rtleech / libtorrent-0.10.4: the file space and the endgame switch.

A shallow embedding of `src/data/entry_list.cc` (class `EntryList`), of
`src/download/download_main.cc` (class `DownloadMain`), of the open and close
calls of `src/torrent/download.cc` and of the announce url and the peer parser
of `src/tracker/tracker_http.cc`, followed by the properties proved about
them.

Conventions of the embedding

* `off_t`, `uint64_t` and `uint32_t` values are mathematical integers; every
  C++ arithmetic expression is followed by the conversion to the type C++
  gives it (`wrapOff`, `wrapU64`, `wrapU32`).
* An iterator into the entry vector is the index of the entry; `end()` is the
  length of the vector.
* A member function returns its result (`Except Error _` when it can throw)
  together with the object after the call and the calls it made to the
  outside (file manager slots, file system, mapping), in order.
-/

set_option autoImplicit false

namespace Torrent

/-! ## Machine integers -/

/-- Conversion of an integer to `off_t` (64 bit, two's complement). -/
def wrapOff (x : Int) : Int := (x + 2 ^ 63) % 2 ^ 64 - 2 ^ 63

/-- Conversion of an integer to `uint64_t`. -/
def wrapU64 (x : Int) : Int := x % 2 ^ 64

/-- Conversion of an integer to `uint32_t`. -/
def wrapU32 (x : Int) : Int := x % 2 ^ 32

/-- The values of an `off_t`. -/
def offRange (x : Int) : Prop := -(2 ^ 63) ≤ x ∧ x < 2 ^ 63

instance (x : Int) : Decidable (offRange x) := by
  unfold offRange; infer_instance

/-- The declared type of `EntryList::m_bytesSize`. The member is declared in
`entry_list.h`, which is not among the sources: the embedding takes the type
as a parameter, `off_t` (the type of the `size` argument that is added to it)
or `uint64_t` (the specification speaks of a 64-bit unsigned counter). -/
inductive TotalType
  | off_t
  | uint64_t
  deriving DecidableEq, Repr

/-- Conversion of an integer to the type of `m_bytesSize`; it is also the
conversion C++ applies to an `off_t` operand that meets `m_bytesSize` in a sum
or a comparison. -/
def TotalType.conv : TotalType → Int → Int
  | .off_t, x => wrapOff x
  | .uint64_t, x => wrapU64 x

/-- The largest value of the type of `m_bytesSize`. -/
def TotalType.maxVal : TotalType → Int
  | .off_t => 2 ^ 63 - 1
  | .uint64_t => 2 ^ 64 - 1

/-- The constant `sizeof(off_t)` of the platform the embedding describes. -/
def sizeof_off_t : Nat := 8

/-! ## Errors, outside calls -/

/-- The exception classes of `torrent/exceptions.h` that the code throws. -/
inductive Error
  | internal_error (what : String)
  | storage_error (what : String)
  | client_error (what : String)
  deriving DecidableEq, Repr

deriving instance DecidableEq for Except

/-- `MemoryChunk::prot_read` (a label handed to the mapping calls). -/
def prot_read : Nat := 1

/-- `MemoryChunk::prot_write` (a label handed to the mapping calls). -/
def prot_write : Nat := 2

/-- `SocketFile::o_create` (a label handed to `FileMeta::prepare`). -/
def o_create : Nat := 64

/-- A call that leaves the `EntryList`: the two file manager slots, the file
system, and the two steps of a mapping. Entries are named by their index. -/
inductive Effect
  | slot_insert (entry : Nat)
  | slot_erase (entry : Nat)
  | mkdir (path : String)
  | update_link (path : String)
  | prepare (entry : Nat) (prot : Nat) (flags : Nat)
  | create_chunk (entry : Nat) (offset : Int) (length : Int) (prot : Nat)
  deriving DecidableEq, Repr

/-- Outcome of `::mkdir`: success, failure with `errno == EEXIST`, or failure
with another `errno` (carrying `strerror(errno)`). -/
inductive MkdirResult
  | ok
  | eexist
  | failed (strerror : String)
  deriving DecidableEq, Repr

/-- What the outside answers. `prepare i prot flags` is the value of
`FileMeta::prepare(prot, flags)` on entry `i`; `create_chunk i offset length
prot` is the size of the `MemoryChunk` that `SocketFile::create_chunk` returns
for the file of entry `i`, `none` for an invalid `MemoryChunk`. -/
structure Env where
  mkdir : String → MkdirResult
  update_link : String → Bool
  is_link : String → Bool
  prepare : Nat → Nat → Nat → Bool
  create_chunk : Nat → Int → Int → Nat → Option Nat
  error_number : String

/-! ## Data model -/

/-- A `torrent::Path`: the list of path components. -/
abbrev Path := List String

/-- Modelled from the spec: `Path::as_string` (path.h is not among the
sources). An entry's resolved path is the root followed by the entry's
relative path: every component is preceded by a slash. -/
def Path.as_string (p : Path) : String :=
  p.foldl (fun s c => s ++ "/" ++ c) ""

/-- The part of `FileMeta` the entry list reads and writes. -/
structure FileMeta where
  is_open : Bool := false
  path : String := ""
  deriving DecidableEq, Repr

/-- An `EntryListNode`, as `new EntryListNode()` followed by the setters leaves
it. -/
structure EntryListNode where
  position : Int := 0
  size : Int := 0
  range : Nat × Nat := (0, 0)
  path : Path := []
  completed : Int := 0
  file_meta : FileMeta := {}
  deriving DecidableEq, Repr

/-- Modelled from the spec: `EntryListNode::is_valid_position`
(entry_list_node.h is not among the sources). The walk "locates the first
FileEntry containing offset": the position lies in `[position, position+size)`. -/
def EntryListNode.is_valid_position (e : EntryListNode) (p : Int) : Bool :=
  decide (p ≥ e.position) && decide (p < wrapOff (e.position + e.size))

/-- The members of `EntryList`; `nodes` is the base class vector. -/
structure EntryList where
  nodes : List EntryListNode := []
  m_bytesSize : Int := 0
  m_isOpen : Bool := false
  m_rootDir : String := ""
  m_indirectLinks : List String := []
  deriving DecidableEq, Repr

/-- A finished call of a member function: what it returned or threw, the
object afterwards, and the outside calls it made. -/
structure Outcome (α : Type) where
  result : Except Error α
  list : EntryList
  effects : List Effect

/-! ## `EntryList::push_back` -/

/-- The value of the test `size + m_bytesSize < m_bytesSize` of `push_back`.
With a `uint64_t` total the `off_t` size is converted to `uint64_t` and the sum
is taken modulo 2^64, as C++ defines it. With an `off_t` total the sum is
signed: where it is an `off_t` value the test compares the exact sum; where it
is not, the sum is a signed overflow, which C++ leaves undefined, and the
embedding keeps the comparison of the exact sum, that is `size < 0`, the test
the compiled code makes. No wrap is read into the signed test. -/
def TotalType.sum_less (T : TotalType) (size total : Int) : Bool :=
  match T with
  | .off_t => decide (size + total < total)
  | .uint64_t => decide (wrapU64 (size + total) < total)

/-- `EntryList::push_back(path, range, size)`. Both guards come before the
first write, so a throw leaves the object as it was. The new total is stored
in the type of `m_bytesSize`, the position in an `off_t`. With an `off_t` total
and a sum that is no `off_t` value, `m_bytesSize += size` is a signed overflow
and C++ gives the call no meaning: the value shown for such an input is the one
of the compiled code, and nothing is proved from it. -/
def EntryList.push_back (T : TotalType) (l : EntryList) (path : Path)
    (range : Nat × Nat) (size : Int) : Outcome Unit :=
  if sizeof_off_t ≠ 8 then
    ⟨.error (.internal_error "sizeof(off_t) != 8"), l, []⟩
  else if T.sum_less size l.m_bytesSize then
    ⟨.error (.internal_error "Sum of files added to EntryList overflowed 64bit"), l, []⟩
  else
    let e : EntryListNode :=
      { position := wrapOff l.m_bytesSize, size := size, range := range, path := path }
    ⟨.ok (), { l with nodes := l.nodes ++ [e], m_bytesSize := T.conv (l.m_bytesSize + size) }, []⟩

/-- A sequence of `push_back` calls, one per `(path, range, size)`; it stops
at the first call that throws. -/
def EntryList.push_back_all (T : TotalType) :
    EntryList → List (Path × (Nat × Nat) × Int) → Except Error EntryList
  | l, [] => .ok l
  | l, (path, range, size) :: rest =>
    match (l.push_back T path range size).result with
    | .error err => .error err
    | .ok _ => EntryList.push_back_all T (l.push_back T path range size).list rest

/-! ## `EntryList::at_position` -/

/-- The loop of `at_position` over the entries from iterator `itr` on. -/
def at_position_loop (offset : Int) : Nat → List EntryListNode → Nat
  | itr, [] => itr
  | itr, e :: rest =>
    if offset ≥ wrapOff (e.position + e.size) then at_position_loop offset (itr + 1) rest
    else itr

/-- `EntryList::at_position(itr, offset)`. -/
def EntryList.at_position (l : EntryList) (itr : Nat) (offset : Int) : Nat :=
  at_position_loop offset itr (l.nodes.drop itr)

/-! ## `EntryList::create_chunk` -/

/-- A valid `MemoryChunk` as the chunk stores it: the entry whose file is
mapped, the offset in that file, and `size()`. -/
structure MemoryChunk where
  file : Nat
  offset : Int
  size : Nat
  deriving DecidableEq, Repr

/-- `EntryList::create_chunk_part(itr, offset, length, prot)`; `none` is the
invalid `MemoryChunk()`. -/
def create_chunk_part (env : Env) (itr : Nat) (e : EntryListNode) (offset length : Int)
    (prot : Nat) : Except Error (Option MemoryChunk) × List Effect :=
  let offset := wrapOff (offset - e.position)
  let length := wrapU32 (min length (wrapOff (e.size - offset)))
  if offset < 0 then
    (.error (.internal_error "EntryList::chunk_part(...) caught a negative offset"), [])
  else if !env.prepare itr prot 0 then
    (.ok none, [.prepare itr prot 0])
  else
    (.ok ((env.create_chunk itr offset length prot).map (fun n => ⟨itr, offset, n⟩)),
      [.prepare itr prot 0, .create_chunk itr offset length prot])

/-- The `for` loop of `create_chunk` from iterator `itr` on (`rest` holds the
entries from `itr` to the end), with the chunk built so far and the outside
calls made so far, followed by the two `return`s after the loop. -/
def create_chunk_loop (env : Env) (prot : Nat) :
    Nat → List EntryListNode → Int → Int → List MemoryChunk → List Effect →
      Except Error (Option (List MemoryChunk)) × List Effect
  | _, [], _, length, chunk, log =>
    if length = 0 then (if chunk.isEmpty then .ok none else .ok (some chunk), log)
    else (.error (.internal_error "EntryList could not find a valid file for chunk"), log)
  | itr, e :: rest, offset, length, chunk, log =>
    if length = 0 then (if chunk.isEmpty then .ok none else .ok (some chunk), log)
    else if e.size = 0 then create_chunk_loop env prot (itr + 1) rest offset length chunk log
    else
      match create_chunk_part env itr e offset length prot with
      | (.error err, fx) => (.error err, log ++ fx)
      | (.ok none, fx) => (.ok none, log ++ fx)
      | (.ok (some mc), fx) =>
        if mc.size = 0 then
          (.error (.internal_error "EntryList::create_chunk(...) mc.size() == 0."), log ++ fx)
        else if (mc.size : Int) > length then
          (.error (.internal_error "EntryList::create_chunk(...) mc.size() > length."), log ++ fx)
        else
          create_chunk_loop env prot (itr + 1) rest (wrapOff (offset + mc.size))
            (wrapU32 (length - mc.size)) (chunk ++ [mc]) (log ++ fx)

/-- `EntryList::create_chunk(offset, length, prot)`: `.ok none` is `NULL`,
`.ok (some parts)` the chunk with its parts in the order they were pushed.
The second component lists the `prepare` and mapping calls. -/
def EntryList.create_chunk (T : TotalType) (env : Env) (l : EntryList) (offset length : Int)
    (prot : Nat) : Except Error (Option (List MemoryChunk)) × List Effect :=
  if T.conv (wrapOff (offset + length)) > l.m_bytesSize then
    (.error (.internal_error "Tried to access chunk out of range in EntryList"), [])
  else
    let itr := l.nodes.findIdx (fun e => e.is_valid_position offset)
    create_chunk_loop env prot itr (l.nodes.drop itr) offset length [] []

/-! ## `EntryList::open` and `EntryList::close` -/

/-- The entries with the handle of entry `itr` marked open or closed. -/
def set_handle (b : Bool) : Nat → List EntryListNode → List EntryListNode
  | _, [] => []
  | 0, e :: rest => { e with file_meta := { e.file_meta with is_open := b } } :: rest
  | itr + 1, e :: rest => e :: set_handle b itr rest

/-- The loop of `make_directory`. `pathBegin` and `startItr` are indices into
the path, `rest` holds the components from `pathBegin` to `pathEnd`, `path` is
the local string, `links` is `m_indirectLinks`. -/
def make_directory_loop (env : Env) :
    List String → Nat → Nat → String → List String → List Effect →
      Except Error Unit × List String × List Effect
  | [], _, _, _, links, log => (.ok (), links, log)
  | c :: rest, pathBegin, startItr, path, links, log =>
    let path := path ++ ("/" ++ c)
    if pathBegin ≠ startItr then
      make_directory_loop env rest (pathBegin + 1) startItr path links log
    else
      let links :=
        if env.update_link path && env.is_link path && !links.contains path then links ++ [path]
        else links
      if rest.isEmpty then (.ok (), links, log ++ [.update_link path])
      else
        match env.mkdir path with
        | .failed strerror =>
          (.error (.storage_error ("Could not create directory '" ++ path ++ "': " ++ strerror)),
            links, log ++ [.update_link path, .mkdir path])
        | _ =>
          make_directory_loop env rest (pathBegin + 1) (startItr + 1) path links
            (log ++ [.update_link path, .mkdir path])

/-- `EntryList::make_directory(pathBegin, pathEnd, startItr)` for the whole
path of an entry (`pathBegin` is `path->begin()`). -/
def EntryList.make_directory (env : Env) (l : EntryList) (path : Path) (startItr : Nat) :
    Outcome Unit :=
  match make_directory_loop env path 0 startItr l.m_rootDir l.m_indirectLinks [] with
  | (r, links, log) => ⟨r, { l with m_indirectLinks := links }, log⟩

/-- The `while` loop of `open_file`: the index of the first component of
`path` that differs from `lastPath`. -/
def first_mismatch : Path → Path → Nat
  | a :: path, b :: lastPath => if a = b then first_mismatch path lastPath + 1 else 0
  | _, _ => 0

/-- `EntryList::open_file(node, lastPath)` for the entry at index `itr`.
A `prepare` that succeeds leaves the handle of the entry open. `open` calls
it for a non-empty path only. -/
def EntryList.open_file (env : Env) (l : EntryList) (itr : Nat) (node : EntryListNode)
    (lastPath : Path) : Outcome Bool :=
  let made := l.make_directory env node.path (first_mismatch node.path lastPath)
  match made.result with
  | .error err => ⟨.error err, made.list, made.effects⟩
  | .ok _ =>
    if node.path.getLast?.getD "" = "" then
      ⟨.ok (decide (node.size = 0)), made.list, made.effects⟩
    else if env.prepare itr (prot_read ||| prot_write) o_create then
      ⟨.ok true, { made.list with nodes := set_handle true itr made.list.nodes },
        made.effects ++ [.prepare itr (prot_read ||| prot_write) o_create]⟩
    else if env.prepare itr prot_read o_create then
      ⟨.ok true, { made.list with nodes := set_handle true itr made.list.nodes },
        made.effects ++ [.prepare itr (prot_read ||| prot_write) o_create,
          .prepare itr prot_read o_create]⟩
    else
      ⟨.ok false, made.list,
        made.effects ++ [.prepare itr (prot_read ||| prot_write) o_create,
          .prepare itr prot_read o_create]⟩

/-- The `while` loop inside the `try` of `open`. `todo` holds the entries from
`itr` to the end (the loop has not touched them yet); the result carries the
value of `itr` when the loop was left. -/
def open_loop (env : Env) :
    List EntryListNode → Nat → Path → EntryList → List Effect →
      Except Error Unit × Nat × EntryList × List Effect
  | [], itr, _, l, log => (.ok (), itr, l, log)
  | entry :: todo, itr, lastPath, l, log =>
    if entry.file_meta.is_open then
      (.error (.internal_error "EntryList::open(...) found an already opened file."),
        itr + 1, l, log)
    else if entry.path.isEmpty then
      (.error (.storage_error "Found an empty filename."), itr + 1, l, log ++ [.slot_insert itr])
    else
      let opened := l.open_file env itr entry lastPath
      match opened.result with
      | .error err => (.error err, itr + 1, opened.list, log ++ .slot_insert itr :: opened.effects)
      | .ok false =>
        (.error (.storage_error ("Could not open file \"" ++ l.m_rootDir ++ entry.path.as_string
            ++ "\": " ++ env.error_number)),
          itr + 1, opened.list, log ++ .slot_insert itr :: opened.effects)
      | .ok true =>
        open_loop env todo (itr + 1) entry.path opened.list
          (log ++ .slot_insert itr :: opened.effects)

/-- Modelled from the spec: the erase slot (`FileManager`, not among the
sources) releases the handle of an entry. The `catch` block of `open` calls it
for the entries before `itr`, in order. -/
def erase_upto (itr : Nat) (l : EntryList) : EntryList :=
  (List.range itr).foldl (fun l i => { l with nodes := set_handle false i l.nodes }) l

/-- `EntryList::open()`. A `storage_error` thrown inside the `try` is caught,
the erase slot is called for the entries before `itr`, and the error is thrown
again; any other exception leaves the function at once. -/
def EntryList.open (env : Env) (l : EntryList) : Outcome Unit :=
  if l.m_rootDir.isEmpty then
    ⟨.error (.internal_error "EntryList::open() m_rootDir.empty()."), l, []⟩
  else
    let l1 : EntryList := { l with m_indirectLinks := l.m_indirectLinks ++ [l.m_rootDir] }
    let body : Except Error Unit × Nat × EntryList × List Effect :=
      match env.mkdir l1.m_rootDir with
      | .failed strerror =>
        (.error (.storage_error ("Could not create directory '" ++ l1.m_rootDir ++ "': "
          ++ strerror)), 0, l1, [.mkdir l1.m_rootDir])
      | _ => open_loop env l1.nodes 0 [] l1 [.mkdir l1.m_rootDir]
    match body with
    | (.error (.storage_error what), itr, l2, log) =>
      ⟨.error (.storage_error what), erase_upto itr l2,
        log ++ (List.range itr).map Effect.slot_erase⟩
    | (.error err, _, l2, log) => ⟨.error err, l2, log⟩
    | (.ok _, _, l2, log) => ⟨.ok (), { l2 with m_isOpen := true }, log⟩

/-- `EntryList::close()`. -/
def EntryList.close (l : EntryList) : Outcome Unit :=
  if !l.m_isOpen then ⟨.ok (), l, []⟩
  else
    ⟨.ok (),
      { erase_upto l.nodes.length l with
        nodes := (erase_upto l.nodes.length l).nodes.map (fun e => { e with completed := 0 }),
        m_isOpen := false,
        m_indirectLinks := [] },
      (List.range l.nodes.length).map Effect.slot_erase⟩

/-- One outside call applied to the entries that are registered through the
insert slot and not released through the erase slot. -/
def register_step (reg : List Nat) : Effect → List Nat
  | .slot_insert i => reg ++ [i]
  | .slot_erase i => reg.erase i
  | _ => reg

/-- The entries registered through the insert slot and not released through
the erase slot since, after a sequence of outside calls in the order they were
made. -/
def registered (log : List Effect) : List Nat :=
  log.foldl register_step []

/-! ## `DownloadMain`: the endgame switch -/

/-- Conversion of a natural number to `size_t` (64 bit), the type of the sum
in `update_endgame`: `TransferList::size()` is a `size_t`, the chunk counts
are `uint32_t`. -/
def wrapSize (x : Nat) : Nat := x % 2 ^ 64

/-- The part of a `DownloadMain` that `start`, `stop` and `update_endgame`
read and write: `info()->is_open()`, `info()->is_active()`,
`m_delegator.get_aggressive()`, `m_content.chunks_completed()`,
`m_delegator.transfer_list()->size()`, `m_content.chunk_total()`,
`connection_list()->size()` and `m_lastConnectedSize`. -/
structure DownloadMain where
  is_open : Bool := false
  is_active : Bool := false
  aggressive : Bool := false
  chunks_completed : Nat := 0
  transfer_list_size : Nat := 0
  chunk_total : Nat := 0
  connection_list_size : Nat := 0
  m_lastConnectedSize : Nat := 0
  deriving DecidableEq, Repr

/-- `DownloadMain::update_endgame()`. -/
def DownloadMain.update_endgame (d : DownloadMain) : DownloadMain :=
  if !d.aggressive &&
      decide (wrapSize (d.chunks_completed + d.transfer_list_size + 5) ≥ d.chunk_total) then
    { d with aggressive := true }
  else d

/-- `DownloadMain::stop()`: `erase_remaining` from `begin()` empties the
connection list. -/
def DownloadMain.stop (d : DownloadMain) : DownloadMain :=
  if !d.is_active then d
  else { d with is_active := false, connection_list_size := 0 }

/-- What happens to a download between `start()` and the next `start()`:
calls of `update_endgame` and `stop`, and changes of the three chunk counts
made by the transfer in between. -/
inductive Event
  | update_endgame
  | stop
  | counts (completed in_progress total : Nat)
  deriving DecidableEq, Repr

/-- One event applied to a download. -/
def DownloadMain.step (d : DownloadMain) : Event → DownloadMain
  | .update_endgame => d.update_endgame
  | .stop => d.stop
  | .counts c n t => { d with chunks_completed := c, transfer_list_size := n, chunk_total := t }

/-- A sequence of events applied in order. -/
def DownloadMain.run (d : DownloadMain) (events : List Event) : DownloadMain :=
  events.foldl DownloadMain.step d

/-! ## Predicates of the statements -/

/-- The entries, in order, have sizes that are not negative and positions that
are the running sum of the sizes before them, starting from `p`. -/
def tiledFrom : Int → List EntryListNode → Prop
  | _, [] => True
  | p, e :: rest => e.position = p ∧ 0 ≤ e.size ∧ tiledFrom (p + e.size) rest

/-- The sizes of the entries, in order. -/
def sizes (nodes : List EntryListNode) : List Int := nodes.map (fun e => e.size)

/-- The entries tile `[0, total)`: positions are running sums from 0, the
total is the sum of the sizes and is an `off_t` value. -/
structure EntryList.Tiled (l : EntryList) : Prop where
  tiled : tiledFrom 0 l.nodes
  total : l.m_bytesSize = (sizes l.nodes).sum
  bound : l.m_bytesSize < 2 ^ 63

/-- Every mapping succeeds: `prepare` returns true and `create_chunk` returns
a valid chunk (the length handed to it is a `uint32_t`, so not negative). -/
def Env.maps_all (env : Env) : Prop :=
  (∀ i prot flags, env.prepare i prot flags = true) ∧
    ∀ i offset length prot, 0 ≤ length →
      (env.create_chunk i offset length prot).isSome = true

/-- A mapping that succeeds has the size that was asked for. -/
def Env.exact (env : Env) : Prop :=
  ∀ i offset length prot n, 0 ≤ length →
    env.create_chunk i offset length prot = some n → (n : Int) = length

/-- The outside call is a step of a mapping that did not succeed. -/
def Effect.failed (env : Env) : Effect → Prop
  | .prepare i prot flags => env.prepare i prot flags = false
  | .create_chunk i offset length prot => env.create_chunk i offset length prot = none
  | _ => False

/-- The parts, in order, lie one after the other in the byte space from `off`
on and end at `off + len`: each part starts at the virtual offset (position of
its entry plus offset in the file) where the one before ended, has positive
size and stays inside its file. -/
def covers (nodes : List EntryListNode) : Int → Int → List MemoryChunk → Prop
  | _, len, [] => len = 0
  | off, len, mc :: rest =>
    (∃ e, nodes[mc.file]? = some e ∧ e.position + mc.offset = off ∧ 0 ≤ mc.offset ∧
      mc.offset + mc.size ≤ e.size) ∧
    0 < mc.size ∧ covers nodes (off + mc.size) (len - mc.size) rest

/-- Each part has the size `min(remaining length, bytes left in its file from
the current offset)`, which is positive, and its file is not empty; `off` is
the current offset and `len` the remaining length. -/
def min_parts (nodes : List EntryListNode) : Int → Int → List MemoryChunk → Prop
  | _, _, [] => True
  | off, len, mc :: rest =>
    (∃ e, nodes[mc.file]? = some e ∧ e.size ≠ 0 ∧ mc.offset = off - e.position ∧
      (mc.size : Int) = min len (e.size - (off - e.position))) ∧
    0 < mc.size ∧ min_parts nodes (off + mc.size) (len - mc.size) rest

/-- The entries that a sequence of `push_back` calls appends when the total is
`p` before the first call. -/
def appended : Int → List (Path × (Nat × Nat) × Int) → List EntryListNode
  | _, [] => []
  | p, (path, range, size) :: rest =>
    { position := p, size := size, range := range, path := path } :: appended (p + size) rest

/-- The sum of the sizes handed to a sequence of `push_back` calls. -/
def added (files : List (Path × (Nat × Nat) × Int)) : Int :=
  (files.map (fun f => f.2.2)).sum

/-- The messages of the internal errors that the walk of `create_chunk` and
`create_chunk_part` can throw. -/
def walk_errors : List Error :=
  [.internal_error "EntryList could not find a valid file for chunk",
   .internal_error "EntryList::chunk_part(...) caught a negative offset",
   .internal_error "EntryList::create_chunk(...) mc.size() == 0.",
   .internal_error "EntryList::create_chunk(...) mc.size() > length."]

/-- The sum of the sizes of the parts of a chunk. -/
def chunk_size (parts : List MemoryChunk) : Int :=
  (parts.map (fun mc => (mc.size : Int))).sum

/-- An outside where every directory can be made, nothing is a link, and every
mapping succeeds with the size asked for. -/
def env_ok : Env where
  mkdir := fun _ => .ok
  update_link := fun _ => true
  is_link := fun _ => false
  prepare := fun _ _ _ => true
  create_chunk := fun _ _ length _ => some length.toNat
  error_number := ""

/-- The file space of the scenario: files A, B and C of 10 bytes each under the
root `dl`, total 30. -/
def abc : EntryList :=
  { nodes := [{ position := 0, size := 10, range := (0, 1), path := ["A"] },
              { position := 10, size := 10, range := (1, 2), path := ["B"] },
              { position := 20, size := 10, range := (2, 3), path := ["C"] }],
    m_bytesSize := 30,
    m_rootDir := "dl" }

/-- An outside like `env_ok` where only the file of entry 0 can be opened:
`prepare` fails for every other entry. -/
def env_first_only : Env :=
  { env_ok with prepare := fun i _ _ => decide (i = 0), error_number := "Permission denied" }

/-! ## `EntryList::set_root_dir` -/

/-- `std::string::find_last_not_of(c)` on the characters of a string: the
largest index whose character is not `c`, `none` for `npos`. (The code looks
for the ASCII slash, so characters and bytes give the same cut.) -/
def find_last_not_of : List Char → Char → Option Nat
  | [], _ => none
  | x :: xs, c =>
    match find_last_not_of xs c with
    | some i => some (i + 1)
    | none => if x ≠ c then some 0 else none

/-- The value `set_root_dir(path)` assigns to `m_rootDir`: `"."` when
`find_last_not_of('/')` is `npos`, else `path.substr(0, last + 1)`. -/
def new_root (path : String) : String :=
  match find_last_not_of path.data '/' with
  | none => "."
  | some last => String.mk (path.data.take (last + 1))

/-- The loop of `set_root_dir` over the entries from the iterator on, with
`m_rootDir` already assigned: the check of the handle comes first, then
`set_path`. The second component holds the entries after the loop was left. -/
def set_root_dir_loop (root : String) :
    List EntryListNode → Except Error Unit × List EntryListNode
  | [] => (.ok (), [])
  | e :: rest =>
    if e.file_meta.is_open then
      (.error (.internal_error "EntryList::set_root_dir(...) found an already opened file."),
        e :: rest)
    else
      ((set_root_dir_loop root rest).1,
        { e with file_meta := { e.file_meta with path := root ++ e.path.as_string } } ::
          (set_root_dir_loop root rest).2)

/-- `EntryList::set_root_dir(path)`. -/
def EntryList.set_root_dir (l : EntryList) (path : String) : Outcome Unit :=
  ⟨(set_root_dir_loop (new_root path) l.nodes).1,
    { l with m_rootDir := new_root path, nodes := (set_root_dir_loop (new_root path) l.nodes).2 },
    []⟩

/-! ## `EntryList::free_diskspace` -/

/-- `std::numeric_limits<uint64_t>::max()`. -/
def uint64_max : Nat := 2 ^ 64 - 1

/-- The loop of `free_diskspace` over `m_indirectLinks`. `stat path` is
`bytes_avail()` when `rak::fs_stat::update(path)` succeeds, `none` when it
fails; `std::min<uint64_t>` converts the value to `uint64_t`. -/
def free_diskspace_loop (stat : String → Option Nat) : List String → Nat → Nat
  | [], freeDiskspace => freeDiskspace
  | path :: rest, freeDiskspace =>
    match stat path with
    | none => free_diskspace_loop stat rest freeDiskspace
    | some avail => free_diskspace_loop stat rest (min freeDiskspace (avail % 2 ^ 64))

/-- `EntryList::free_diskspace()`. -/
def EntryList.free_diskspace (stat : String → Option Nat) (l : EntryList) : Nat :=
  if free_diskspace_loop stat l.m_indirectLinks uint64_max ≠ uint64_max then
    free_diskspace_loop stat l.m_indirectLinks uint64_max
  else 0

/-- The byte counts, as `uint64_t`, of the recorded mount roots that can be
statted. -/
def statted (stat : String → Option Nat) (l : EntryList) : List Nat :=
  l.m_indirectLinks.filterMap (fun path => (stat path).map (fun avail => avail % 2 ^ 64))

/-! ## `DownloadMain`: start and the tracker request -/

/-- `DownloadMain::receive_connect_peers()`: it moves addresses inside the
available list and hands some to the handshake manager; none of the members
kept in the embedding changes. -/
def DownloadMain.receive_connect_peers (d : DownloadMain) : DownloadMain := d

/-- `DownloadMain::start()`. -/
def DownloadMain.start (d : DownloadMain) : Except Error Unit × DownloadMain :=
  if !d.is_open then (.error (.client_error "Tried to start a closed download"), d)
  else if d.is_active then (.error (.client_error "Tried to start an active download"), d)
  else
    (.ok (),
      ({ d with is_active := true, m_lastConnectedSize := 0,
                aggressive := false }).update_endgame.receive_connect_peers)

/-- A call of `receive_tracker_request` into the tracker manager. -/
inductive TrackerCall
  | request_current
  | request_next
  deriving DecidableEq, Repr

/-- `DownloadMain::receive_tracker_request()`. `min_size` is
`connection_list()->get_min_size()`, `current_accepted` the value that
`m_trackerManager->request_current()` returns when it is called (the `||` calls
it only when its left side is false). `m_lastConnectedSize` is a `uint32_t`:
the sum with 10 and the assignment are taken modulo 2^32. -/
def DownloadMain.receive_tracker_request (min_size : Nat) (current_accepted : Bool)
    (d : DownloadMain) : DownloadMain × List TrackerCall :=
  if d.connection_list_size ≥ min_size then (d, [])
  else
    ({ d with m_lastConnectedSize := d.connection_list_size % 2 ^ 32 },
      if d.connection_list_size < (d.m_lastConnectedSize + 10) % 2 ^ 32 then [.request_next]
      else if !current_accepted then [.request_current, .request_next]
      else [.request_current])

/-! ## Readings of the call log -/

/-- The entries handed to the insert slot, in the order of the calls. -/
def inserted (log : List Effect) : List Nat :=
  log.filterMap (fun a => match a with | .slot_insert i => some i | _ => none)

/-- The entries handed to the erase slot, in the order of the calls. -/
def erased (log : List Effect) : List Nat :=
  log.filterMap (fun a => match a with | .slot_erase i => some i | _ => none)

/-- The paths handed to `::mkdir`, in the order of the calls. -/
def mkdirs (log : List Effect) : List String :=
  log.filterMap (fun a => match a with | .mkdir p => some p | _ => none)

/-- The paths probed with `update_link`, in the order of the calls. -/
def probes (log : List Effect) : List String :=
  log.filterMap (fun a => match a with | .update_link p => some p | _ => none)

/-- The `prepare` calls of a log. -/
def prepares (log : List Effect) : List Effect :=
  log.filter (fun a => match a with | .prepare _ _ _ => true | _ => false)

/-- The directory strings `make_directory` builds for a path: element `i` is
the root followed by the components 0 to `i`, each after a slash. -/
def dir_paths : String → List String → List String
  | _, [] => []
  | root, c :: rest => (root ++ ("/" ++ c)) :: dir_paths (root ++ ("/" ++ c)) rest

/-- No `::mkdir` of one of the paths fails with an error other than EEXIST. -/
def mkdir_passes (env : Env) (paths : List String) : Prop :=
  ∀ p ∈ paths, ∀ strerror, env.mkdir p ≠ .failed strerror

/-! ## Example objects -/

/-- The three files of `abc` with the handle of B open. -/
def abc_b_open : EntryList :=
  { abc with nodes := set_handle true 1 abc.nodes }

/-- A placeholder entry for the empty directory `sub` (last component empty). -/
def placeholder (size : Int) : EntryListNode :=
  { position := 30, size := size, range := (3, 3), path := ["sub", ""] }

/-- An outside like `env_ok` where no directory can be made. -/
def env_no_mkdir : Env :=
  { env_ok with mkdir := fun _ => .failed "Permission denied" }

/-- An entry after the erase slot released its handle. -/
def released (e : EntryListNode) : EntryListNode :=
  { e with file_meta := { e.file_meta with is_open := false } }

/-- The local string of `make_directory` after the loop has appended the
components `comps` to it. -/
def extend (path : String) (comps : List String) : String :=
  comps.foldl (fun s c => s ++ ("/" ++ c)) path

/-- The message of the storage error for a directory that cannot be made. -/
def mkdir_error (path strerror : String) : Error :=
  .storage_error ("Could not create directory '" ++ path ++ "': " ++ strerror)

/-- The outside call is a probe for a link or a `::mkdir`. -/
def Effect.is_dir_call : Effect → Prop
  | .update_link _ => True
  | .mkdir _ => True
  | _ => False

/-- The three files of `abc` followed by the placeholder entry. -/
def with_placeholder (size : Int) : EntryList :=
  { abc with nodes := abc.nodes ++ [placeholder size] }

/-- An active download with 12 connections, 5 at the last tracker request. -/
def few_peers : DownloadMain :=
  { is_open := true, is_active := true, connection_list_size := 12, m_lastConnectedSize := 5 }

/-! ## `DownloadMain::open`, `DownloadMain::close` and `Download` -/

/-- `DownloadMain::open()`. `inner` is the outcome of the calls between the
guard and `set_open(true)` (`entry_list()->open()`, `m_chunkList->resize`,
`m_chunkStatistics->initialize`): an exception of one of them leaves the
function before the flag is written. -/
def DownloadMain.open (inner : Except Error Unit) (d : DownloadMain) :
    Except Error Unit × DownloadMain :=
  if d.is_open then
    (.error (.internal_error "Tried to open a download that is already open"), d)
  else
    match inner with
    | .error err => (.error err, d)
    | .ok _ => (.ok (), { d with is_open := true })

/-- `DownloadMain::close()`. `set_open(false)` comes before the calls that
clear the members (`m_trackerManager->close()`, `transfer_list()->clear()`,
`bitfield()->unallocate()`, `entry_list()->close()`, the chunk statistics,
list and selector); `cleanup` is the outcome of those calls, `completed` and
`in_progress` the values they leave in `m_content.chunks_completed()` and
`transfer_list()->size()`. -/
def DownloadMain.close (cleanup : Except Error Unit) (completed in_progress : Nat)
    (d : DownloadMain) : Except Error Unit × DownloadMain :=
  if d.is_active then (.error (.internal_error "Tried to close an active download"), d)
  else if !d.is_open then (.ok (), d)
  else
    (cleanup,
      { d with is_open := false, chunks_completed := completed,
               transfer_list_size := in_progress })

/-- A call of one of the four members that write the open and active flags
of a `DownloadMain`, with the outcomes of the calls it makes to the outside. -/
inductive Call
  | open (inner : Except Error Unit)
  | close (cleanup : Except Error Unit) (completed in_progress : Nat)
  | start
  | stop

/-- The download after one call, whether the call returned or threw. -/
def DownloadMain.call (d : DownloadMain) : Call → DownloadMain
  | .open inner => (d.open inner).2
  | .close cleanup completed in_progress => (d.close cleanup completed in_progress).2
  | .start => (d.start).2
  | .stop => d.stop

/-- The download after a sequence of calls. -/
def DownloadMain.calls (d : DownloadMain) (cs : List Call) : DownloadMain :=
  cs.foldl DownloadMain.call d

/-- `Download::stop()` on the `DownloadMain` behind `m_ptr`; the two calls
into the tracker manager that follow `main()->stop()` write none of the
members kept in the embedding. -/
def Download.stop (d : DownloadMain) : DownloadMain :=
  if !d.is_active then d else d.stop

/-- Modelled from the spec: `DownloadWrapper::close` (download_wrapper.cc is
not among the sources). `Download::close` reaches `DownloadMain::close` through
it: the wrapper closes the `DownloadMain` it holds. -/
def DownloadWrapper.close (cleanup : Except Error Unit) (completed in_progress : Nat)
    (d : DownloadMain) : Except Error Unit × DownloadMain :=
  d.close cleanup completed in_progress

/-- `Download::close()` on the `DownloadMain` behind `m_ptr`. -/
def Download.close (cleanup : Except Error Unit) (completed in_progress : Nat)
    (d : DownloadMain) : Except Error Unit × DownloadMain :=
  DownloadWrapper.close cleanup completed in_progress
    (if d.is_active then Download.stop d else d)

/-! ## `TrackerHttp` -/

/-- The states of `DownloadInfo::State` that `send_state` names, and any other
value of the enumeration (download_info.h is not among the sources). -/
inductive State
  | STARTED
  | STOPPED
  | COMPLETED
  | other (value : Nat)
  deriving DecidableEq, Repr

/-- The members of `DownloadInfo` that `send_state` reads; `hash` and
`local_id` hold one character for each byte. -/
structure DownloadInfo where
  hash : String
  local_id : String
  key : Nat
  is_compact : Bool
  numwant : Int
  deriving DecidableEq, Repr

/-- What `send_state` reads from the manager: the string of the local address
when it is an IPv4 address other than the any address (`none` otherwise), and
the listen port. -/
structure ConnectionManager where
  local_ip : Option String
  listen_port : Nat
  deriving DecidableEq, Repr

/-- The members of `TrackerHttp` that `send_state` and `close` read and write;
`m_data` tells whether the pointer is not NULL, `get_url`, `get_timeout` and
`get_busy` are the url, the timeout and the running state of `m_get`. -/
structure TrackerHttp where
  m_info : Option DownloadInfo
  m_url : String
  m_trackerId : String := ""
  m_data : Bool := false
  get_url : String := ""
  get_timeout : Nat := 0
  get_busy : Bool := false
  deriving DecidableEq, Repr

/-- `TrackerHttp::close()`. -/
def TrackerHttp.close (t : TrackerHttp) : TrackerHttp :=
  if !t.m_data then t else { t with get_busy := false, m_data := false }

/-- The output of `<< std::hex << std::setw(8) << std::setfill('0') << key`:
the lower case hexadecimal digits, filled with zeros on the left up to a
width of 8. -/
def hex8 (key : Nat) : String :=
  String.mk (List.replicate (8 - (Nat.toDigits 16 key).length) '0' ++ Nat.toDigits 16 key)

/-- The part of the url that `send_state` writes before `&uploaded=`
(lines 90 to 113); `escape` is `rak::copy_escape_html`. -/
def announce_head (escape : String → String) (cm : ConnectionManager) (t : TrackerHttp)
    (info : DownloadInfo) : String :=
  t.m_url ++ "?info_hash=" ++ escape info.hash ++ "&peer_id=" ++ escape info.local_id
    ++ (if info.key ≠ 0 then "&key=" ++ hex8 info.key else "")
    ++ (if !t.m_trackerId.isEmpty then "&trackerid=" ++ escape t.m_trackerId else "")
    ++ (match cm.local_ip with | some ip => "&ip=" ++ ip | none => "")
    ++ (if info.is_compact then "&compact=1" else "")
    ++ (if info.numwant ≥ 0 then "&numwant=" ++ toString info.numwant else "")
    ++ (if cm.listen_port ≠ 0 then "&port=" ++ toString cm.listen_port else "")

/-- The text the `switch` of `send_state` writes for a state. -/
def event_text : State → String
  | .STARTED => "&event=started"
  | .STOPPED => "&event=stopped"
  | .COMPLETED => "&event=completed"
  | .other _ => ""

/-- `TrackerHttp::send_state(state, down, up, left)`; `down`, `up` and `left`
are `uint64_t` values, the product `down*10` is taken modulo 2^64. -/
def TrackerHttp.send_state (escape : String → String) (cm : ConnectionManager)
    (t : TrackerHttp) (state : State) (down up left : Nat) : Except Error Unit × TrackerHttp :=
  match t.close.m_info with
  | none =>
    (.error (.internal_error "TrackerHttp::send_state(...) does not have a valid m_info"),
      t.close)
  | some info =>
    if info.local_id.length ≠ 20 || info.hash.length ≠ 20 then
      (.error (.internal_error "Send state with TrackerHttp with bad hash or id"), t.close)
    else
      (.ok (),
        { t.close with
          m_data := true,
          get_url := announce_head escape cm t.close info
            ++ "&uploaded=" ++ toString (down * 10 % 2 ^ 64)
            ++ "&downloaded=" ++ toString up
            ++ "&left=" ++ toString left
            ++ event_text state,
          get_timeout := 2 * 60,
          get_busy := true })

/-- A bencoded `Object` (torrent/object.h is not among the sources): a value,
a string, a list, or a map from keys to objects. -/
inductive Object
  | none
  | value (v : Int)
  | string (s : String)
  | list (items : List Object)
  | map (entries : List (String × Object))

/-- `Object::is_map()`. -/
def Object.is_map : Object → Bool
  | .map _ => true
  | _ => false

/-- The object stored under a key of a map, `none` when the object is not a
map or has no such key. -/
def Object.find (b : Object) (key : String) : Option Object :=
  match b with
  | .map entries => (entries.find? (fun kv => kv.1 == key)).map (fun kv => kv.2)
  | _ => Option.none

/-- `Object::has_key_string(key)` with `get_key_string(key)`: the string
stored under the key, `none` when there is none. -/
def Object.key_string (b : Object) (key : String) : Option String :=
  match b.find key with
  | some (.string s) => some s
  | _ => Option.none

/-- `Object::has_key_value(key)` with `get_key_value(key)`: the integer
(an `int64_t`) stored under the key, `none` when there is none. -/
def Object.key_value (b : Object) (key : String) : Option Int :=
  match b.find key with
  | some (.value v) => some v
  | _ => Option.none

/-- A `rak::socket_address` as `parse_address` leaves it: the IPv4 address
when one was set (`none` after `clear()`), and the port, 0 when unset. -/
structure SocketAddress where
  address : Option Nat := Option.none
  port : Nat := 0
  deriving DecidableEq, Repr

/-- `TrackerHttp::parse_address(b)`. `parse ip` is the address that
`set_address_str(ip)` stores, `none` when it returns false. The port is an
`int64_t`; `set_port` takes a `uint16_t`. -/
def parse_address (parse : String → Option Nat) (b : Object) : SocketAddress :=
  if !b.is_map then {}
  else
    match b.key_string "ip" with
    | Option.none => {}
    | some ip =>
      match parse ip with
      | Option.none => {}
      | some a =>
        match b.key_value "port" with
        | Option.none => { address := some a }
        | some port =>
          if port ≤ 0 || port ≥ 2 ^ 16 then { address := some a }
          else { address := some a, port := (port % 2 ^ 16).toNat }

/-! ## Example objects of the last statements -/

/-- A download info with a hash and an id of 20 bytes, no key, 50 peers wanted. -/
def info20 : DownloadInfo :=
  { hash := "aaaaaaaaaaaaaaaaaaaa", local_id := "-lt0A40-bbbbbbbbbbbb", key := 0,
    is_compact := true, numwant := 50 }

/-- A tracker with no request running. -/
def tracker_idle : TrackerHttp :=
  { m_info := some info20, m_url := "http://t/announce" }

/-- A peer entry of a tracker answer. -/
def peer_ok : Object :=
  .map [("ip", .string "10.0.0.1"), ("peer id", .string "x"), ("port", .value 6881)]

/-- A parser of addresses that knows one address. -/
def parse_one (ip : String) : Option Nat :=
  if ip = "10.0.0.1" then some 167772161 else Option.none

/-- Three files of 2^63 - 1, 10 and 10 bytes: their sum, 2^63 + 19, is a
`uint64_t` value, the sum of the first two is not an `off_t` value. -/
def big_files : List (Path × (Nat × Nat) × Int) :=
  [(["A"], (0, 1), 2 ^ 63 - 1), (["B"], (1, 2), 10), (["C"], (2, 3), 10)]

/-- The three files of `abc` as arguments of `push_back`. -/
def abc_files : List (Path × (Nat × Nat) × Int) :=
  [(["A"], (0, 1), 10), (["B"], (1, 2), 10), (["C"], (2, 3), 10)]

/-- The entry with the new path `set_root_dir` gives it under a root. -/
def rerooted (root : String) (e : EntryListNode) : EntryListNode :=
  { e with file_meta := { e.file_meta with path := root ++ e.path.as_string } }

/-! ## Arithmetic of the conversions -/

theorem wrapOff_of_range (x : Int) (h : offRange x) : wrapOff x = x := by
  unfold wrapOff; unfold offRange at h; omega

theorem wrapU32_of_range (x : Int) (h0 : 0 ≤ x) (h1 : x < 2 ^ 32) : wrapU32 x = x := by
  unfold wrapU32; omega

theorem conv_of_range (T : TotalType) (x : Int) (h0 : 0 ≤ x) (h1 : x < 2 ^ 63) :
    T.conv x = x := by
  cases T
  · simp only [TotalType.conv, wrapOff]; omega
  · simp only [TotalType.conv, wrapU64]; omega

theorem env_ok_maps_all : env_ok.maps_all :=
  ⟨fun _ _ _ => rfl, fun _ _ _ _ _ => rfl⟩

theorem env_ok_exact : env_ok.exact := by
  intro i offset length prot n h hn
  simp only [env_ok, Option.some.injEq] at hn
  omega

theorem abc_tiled : abc.Tiled :=
  ⟨by simp [abc, tiledFrom], by simp [abc, sizes], by simp [abc]⟩

/-! ## `push_back`: the entries tile the byte space -/

theorem added_nonneg (files : List (Path × (Nat × Nat) × Int))
    (hsize : ∀ f ∈ files, 0 ≤ f.2.2) : 0 ≤ added files := by
  induction files with
  | nil => simp [added]
  | cons f rest ih =>
    have h1 := hsize f (List.mem_cons_self _ _)
    have h2 := ih (fun g hg => hsize g (List.mem_cons_of_mem _ hg))
    simp only [added, List.map_cons, List.sum_cons] at *
    omega

theorem conv_of_le_max (T : TotalType) (x : Int) (h0 : 0 ≤ x) (h1 : x ≤ T.maxVal) :
    T.conv x = x := by
  cases T
  · simp only [TotalType.conv, TotalType.maxVal, wrapOff] at *; omega
  · simp only [TotalType.conv, TotalType.maxVal, wrapU64] at *; omega

theorem push_back_ok (T : TotalType) (l : EntryList) (path : Path) (range : Nat × Nat)
    (size : Int) (hl : 0 ≤ l.m_bytesSize) (hs : 0 ≤ size) (hpos : l.m_bytesSize < 2 ^ 63)
    (hfit : l.m_bytesSize + size ≤ T.maxVal) :
    l.push_back T path range size =
      ⟨.ok (), { l with
          nodes := l.nodes ++
            [{ position := l.m_bytesSize, size := size, range := range, path := path }],
          m_bytesSize := l.m_bytesSize + size }, []⟩ := by
  have h1 : T.sum_less size l.m_bytesSize = false := by
    cases T
    · simp only [TotalType.sum_less, decide_eq_false_iff_not]; omega
    · simp only [TotalType.sum_less, TotalType.maxVal, wrapU64, decide_eq_false_iff_not] at *
      omega
  have h2 : T.conv (l.m_bytesSize + size) = l.m_bytesSize + size :=
    conv_of_le_max T _ (by omega) hfit
  have h3 : wrapOff l.m_bytesSize = l.m_bytesSize :=
    wrapOff_of_range _ ⟨by omega, by omega⟩
  unfold EntryList.push_back
  rw [h1, h2, h3]
  simp [sizeof_off_t]

theorem added_cons (f : Path × (Nat × Nat) × Int) (rest : List (Path × (Nat × Nat) × Int)) :
    added (f :: rest) = f.2.2 + added rest := by
  simp [added]

theorem push_back_all_eq (T : TotalType) (files : List (Path × (Nat × Nat) × Int)) :
    ∀ (l : EntryList), 0 ≤ l.m_bytesSize → (∀ f ∈ files, 0 ≤ f.2.2) →
      l.m_bytesSize + added files ≤ T.maxVal →
      (files ≠ [] → l.m_bytesSize + added files.dropLast < 2 ^ 63) →
      l.push_back_all T files =
        .ok { l with nodes := l.nodes ++ appended l.m_bytesSize files,
                     m_bytesSize := l.m_bytesSize + added files } := by
  induction files with
  | nil => intro l _ _ _ _; simp [EntryList.push_back_all, appended, added]
  | cons f rest ih =>
    intro l hl hsize hfit hpos
    obtain ⟨path, range, size⟩ := f
    have hs : 0 ≤ size := hsize (path, range, size) (List.mem_cons_self _ _)
    have hrest : ∀ g ∈ rest, 0 ≤ g.2.2 := fun g hg => hsize g (List.mem_cons_of_mem _ hg)
    have hnn := added_nonneg rest hrest
    have hadd : added ((path, range, size) :: rest) = size + added rest := added_cons _ _
    rw [hadd] at hfit
    have hpos' := hpos (List.cons_ne_nil _ _)
    have hdl : 0 ≤ added ((path, range, size) :: rest).dropLast :=
      added_nonneg _ (fun g hg => hsize g (List.dropLast_subset _ hg))
    have hpb := push_back_ok T l path range size hl hs (by omega) (by omega)
    simp only [EntryList.push_back_all, hpb]
    rw [ih _ (by simp; omega) hrest (by simp; omega) ?_]
    · simp [appended, hadd, add_assoc]
    · intro hne
      rw [List.dropLast_cons_of_ne_nil hne, added_cons] at hpos'
      simp only at hpos' ⊢
      omega

theorem appended_tiled (files : List (Path × (Nat × Nat) × Int)) :
    ∀ p : Int, (∀ f ∈ files, 0 ≤ f.2.2) → tiledFrom p (appended p files) := by
  induction files with
  | nil => intro p _; simp [appended, tiledFrom]
  | cons f rest ih =>
    intro p hsize
    obtain ⟨path, range, size⟩ := f
    refine ⟨rfl, hsize (path, range, size) (List.mem_cons_self _ _), ?_⟩
    exact ih _ (fun g hg => hsize g (List.mem_cons_of_mem _ hg))

theorem appended_sizes (files : List (Path × (Nat × Nat) × Int)) :
    ∀ p : Int, (sizes (appended p files)).sum = added files := by
  induction files with
  | nil => intro p; simp [appended, sizes, added]
  | cons f rest ih =>
    intro p
    obtain ⟨path, range, size⟩ := f
    have := ih (p + size)
    simp only [sizes, added, appended, List.map_cons, List.sum_cons] at *
    omega

theorem appended_get (files : List (Path × (Nat × Nat) × Int)) :
    ∀ (p : Int) (i : Nat) (f : Path × (Nat × Nat) × Int), files[i]? = some f →
      (appended p files)[i]? =
        some { position := p + added (files.take i), size := f.2.2, range := f.2.1,
               path := f.1 } := by
  induction files with
  | nil => intro p i f h; simp at h
  | cons g rest ih =>
    intro p i f h
    obtain ⟨path, range, size⟩ := g
    cases i with
    | zero =>
      simp at h
      subst h
      simp [appended, added]
    | succ j =>
      simp at h
      have := ih (p + size) j f h
      simp [appended, this, added, add_assoc]

/-- C1, amended. A sequence of push_back calls on an empty entry list, with
sizes that are not negative, whose sum does not overflow the total (it is at
most the largest value of the type of m_bytesSize) and whose sum before the
last file is below 2^63 (an off_t value, like every position): every call
succeeds, the total m_bytesSize is the sum of the sizes, the i-th entry
carries the i-th size and path and its position is the sum of the sizes before
it, so the ranges tile the byte space from 0 to the total. -/
theorem push_back_all_tiles (T : TotalType) (l₀ : EntryList)
    (files : List (Path × (Nat × Nat) × Int))
    (hnodes : l₀.nodes = []) (htotal : l₀.m_bytesSize = 0)
    (hsize : ∀ f ∈ files, 0 ≤ f.2.2) (hsum : added files ≤ T.maxVal)
    (hpos : added files.dropLast < 2 ^ 63) :
    ∃ l, l₀.push_back_all T files = .ok l ∧
      l.m_bytesSize = added files ∧
      l.nodes.length = files.length ∧
      (∀ i f, files[i]? = some f →
        ∃ e, l.nodes[i]? = some e ∧ e.size = f.2.2 ∧ e.path = f.1 ∧
          e.position = added (files.take i)) ∧
      tiledFrom 0 l.nodes ∧ l.m_bytesSize = (sizes l.nodes).sum ∧
      (added files < 2 ^ 63 → l.Tiled) := by
  have h := push_back_all_eq T files l₀ (by omega) hsize (by omega) (fun _ => by omega)
  have htiled : tiledFrom 0 (l₀.nodes ++ appended l₀.m_bytesSize files) := by
    simp only [hnodes, List.nil_append, htotal]
    exact appended_tiled files 0 hsize
  have hsizes : l₀.m_bytesSize + added files =
      (sizes (l₀.nodes ++ appended l₀.m_bytesSize files)).sum := by
    simp only [hnodes, List.nil_append, htotal, appended_sizes]
    simp
  refine ⟨_, h, ?_, ?_, ?_, htiled, hsizes, ?_⟩
  · simp [htotal]
  · simp only [hnodes, List.nil_append]
    clear h hsize hsum hpos htiled hsizes
    generalize l₀.m_bytesSize = p
    induction files generalizing p with
    | nil => simp [appended]
    | cons f rest ih => obtain ⟨path, range, size⟩ := f; simp [appended, ih]
  · intro i f hf
    refine ⟨{ position := l₀.m_bytesSize + added (files.take i), size := f.2.2,
              range := f.2.1, path := f.1 }, ?_, rfl, rfl, ?_⟩
    · simp only [hnodes, List.nil_append]
      exact appended_get files _ i f hf
    · simp [htotal]
  · intro hlt
    exact ⟨htiled, hsizes, by simp [htotal]; exact hlt⟩

/-- Witness of C1: three files of 10 bytes pushed on a new entry list. -/
theorem push_back_all_tiles_witness :
    ∃ l, ({} : EntryList).push_back_all .uint64_t abc_files = .ok l ∧
      l.m_bytesSize = added abc_files ∧
      l.nodes.length = abc_files.length ∧
      (∀ i f, abc_files[i]? = some f →
        ∃ e, l.nodes[i]? = some e ∧ e.size = f.2.2 ∧ e.path = f.1 ∧
          e.position = added (abc_files.take i)) ∧
      tiledFrom 0 l.nodes ∧ l.m_bytesSize = (sizes l.nodes).sum ∧
      (added abc_files < 2 ^ 63 → l.Tiled) :=
  push_back_all_tiles .uint64_t {} abc_files rfl rfl (by decide) (by decide) (by decide)

/-- C1 as stated fails for an unsigned 64-bit total when a sum of earlier
sizes is no off_t value: the sizes 2^63 - 1, 10 and 10 are not negative and
their sum 2^63 + 19 does not overflow the total; every push_back returns and
the total is the sum, but the position of the third entry is -(2^63) + 9, not
the sum 2^63 + 9 of the two sizes before it. -/
theorem push_back_position_wraps :
    (∀ f ∈ big_files, 0 ≤ f.2.2) ∧ added big_files ≤ TotalType.uint64_t.maxVal ∧
    ((({} : EntryList).push_back_all .uint64_t big_files).toOption.map
      (fun l => (l.m_bytesSize, l.nodes.map (fun e => e.position)))) =
        some (2 ^ 63 + 19, [0, 2 ^ 63 - 1, -(2 ^ 63) + 9]) ∧
    added (big_files.take 2) = 2 ^ 63 + 9 := by
  decide

/-! ## `push_back`: the overflow guard -/

theorem tiledFrom_sum_nonneg (rest : List EntryListNode) :
    ∀ p : Int, tiledFrom p rest → 0 ≤ (sizes rest).sum := by
  induction rest with
  | nil => intro p _; simp [sizes]
  | cons e rest ih =>
    intro p h
    have := ih _ h.2.2
    have := h.2.1
    simp only [sizes, List.map_cons, List.sum_cons] at *
    omega

theorem at_position_loop_spec (offset : Int) (rest : List EntryListNode) :
    ∀ (itr : Nat) (p : Int), tiledFrom p rest → 0 ≤ p → p + (sizes rest).sum < 2 ^ 63 →
      p ≤ offset →
      (offset < p + (sizes rest).sum →
        ∃ k e, at_position_loop offset itr rest = itr + k ∧ rest[k]? = some e ∧
          e.position ≤ offset ∧ offset < e.position + e.size) ∧
      (p + (sizes rest).sum ≤ offset → at_position_loop offset itr rest = itr + rest.length) := by
  induction rest with
  | nil =>
    intro itr p _ _ _ hp
    simp only [sizes, List.map_nil, List.sum_nil, at_position_loop] at *
    constructor
    · intro h; omega
    · intro _; rfl
  | cons e rest ih =>
    intro itr p ht hp0 hfit hp
    obtain ⟨hpos, hsz, htail⟩ := ht
    have hnn := tiledFrom_sum_nonneg rest _ htail
    have hsum : (sizes (e :: rest)).sum = e.size + (sizes rest).sum := by simp [sizes]
    rw [hsum] at hfit ⊢
    have hw : wrapOff (e.position + e.size) = p + e.size := by
      rw [hpos]; exact wrapOff_of_range _ ⟨by omega, by omega⟩
    unfold at_position_loop
    rw [hw]
    by_cases hge : offset ≥ p + e.size
    · rw [if_pos hge]
      obtain ⟨h1, h2⟩ := ih (itr + 1) (p + e.size) htail (by omega) (by omega) hge
      constructor
      · intro hlt
        obtain ⟨k, e', hk, hget, hb⟩ := h1 (by omega)
        exact ⟨k + 1, e', by omega, by simpa using hget, hb⟩
      · intro hle
        rw [h2 (by omega)]
        simp; omega
    · rw [if_neg hge]
      constructor
      · intro _
        exact ⟨0, e, rfl, by simp, by omega, by omega⟩
      · intro hle; omega

/-- C6. On an entry list that tiles the byte space, at_position started at the
first entry returns, for an offset from 0 up to the total, the index of the
entry whose range holds the offset (that entry is not empty), and returns the
end iterator for an offset at or past the total. -/
theorem at_position_locates (l : EntryList) (offset : Int) (hl : l.Tiled) :
    (0 ≤ offset → offset < l.m_bytesSize →
      ∃ e, l.nodes[l.at_position 0 offset]? = some e ∧
        e.position ≤ offset ∧ offset < e.position + e.size ∧ e.size ≠ 0) ∧
    (l.m_bytesSize ≤ offset → l.at_position 0 offset = l.nodes.length) := by
  have htot := hl.total
  have hb := hl.bound
  have hnn := tiledFrom_sum_nonneg _ _ hl.tiled
  constructor
  · intro h0 hlt
    obtain ⟨h1, _⟩ := at_position_loop_spec offset l.nodes 0 0 hl.tiled (by omega)
      (by omega) h0
    obtain ⟨k, e, hk, hget, hlo, hhi⟩ := h1 (by omega)
    refine ⟨e, ?_, hlo, hhi, by omega⟩
    simp only [EntryList.at_position, List.drop_zero, hk]
    simpa using hget
  · intro hge
    obtain ⟨_, h2⟩ := at_position_loop_spec offset l.nodes 0 0 hl.tiled (by omega)
      (by omega) (by omega)
    simp only [EntryList.at_position, List.drop_zero]
    rw [h2 (by omega)]
    simp

/-- Witness of C6: offset 15 on three files of 10 bytes lies in the second. -/
theorem at_position_locates_witness :
    ∃ e, abc.nodes[abc.at_position 0 15]? = some e ∧
      e.position ≤ 15 ∧ 15 < e.position + e.size ∧ e.size ≠ 0 :=
  (at_position_locates abc 15 abc_tiled).1 (by decide) (by decide)

/-! ## `create_chunk`: the walk over the files -/

theorem create_chunk_part_eq (env : Env) (itr : Nat) (e : EntryListNode) (offset length : Int)
    (prot : Nat) (hp0 : 0 ≤ e.position) (hlo : e.position ≤ offset)
    (hhi : offset < e.position + e.size) (hfit : e.position + e.size < 2 ^ 63)
    (hlen0 : 0 < length) (hlen1 : length < 2 ^ 32) :
    create_chunk_part env itr e offset length prot =
      if !env.prepare itr prot 0 then (.ok none, [.prepare itr prot 0])
      else
        (.ok ((env.create_chunk itr (offset - e.position)
            (min length (e.size - (offset - e.position))) prot).map
              (fun n => ⟨itr, offset - e.position, n⟩)),
          [.prepare itr prot 0,
           .create_chunk itr (offset - e.position)
            (min length (e.size - (offset - e.position))) prot]) := by
  have h1 : wrapOff (offset - e.position) = offset - e.position :=
    wrapOff_of_range _ ⟨by omega, by omega⟩
  have h2 : wrapOff (e.size - (offset - e.position)) = e.size - (offset - e.position) :=
    wrapOff_of_range _ ⟨by omega, by omega⟩
  have h3 : wrapU32 (min length (e.size - (offset - e.position))) =
      min length (e.size - (offset - e.position)) :=
    wrapU32_of_range _ (by omega) (by omega)
  have h4 : ¬ (offset - e.position < 0) := by omega
  simp only [create_chunk_part, h1, h2, h3, if_neg h4]

theorem create_chunk_loop_done (env : Env) (prot itr : Nat) (rest : List EntryListNode)
    (offset : Int) (chunk : List MemoryChunk) (log : List Effect) :
    create_chunk_loop env prot itr rest offset 0 chunk log =
      (if chunk.isEmpty then .ok none else .ok (some chunk), log) := by
  cases rest <;> simp [create_chunk_loop]

theorem not_maps_all_of_prepare (env : Env) (i prot flags : Nat)
    (h : env.prepare i prot flags = false) : ¬ env.maps_all := by
  intro hall
  have := hall.1 i prot flags
  simp [h] at this

theorem not_maps_all_of_create (env : Env) (i : Nat) (offset length : Int) (prot : Nat)
    (h0 : 0 ≤ length) (h : env.create_chunk i offset length prot = none) : ¬ env.maps_all := by
  intro hall
  have := hall.2 i offset length prot h0
  simp [h] at this

theorem create_chunk_loop_spec (env : Env) (prot : Nat) (nodes : List EntryListNode)
    (hexact : env.exact) (rest : List EntryListNode) :
    ∀ (pre : List EntryListNode) (p offset length : Int) (chunk : List MemoryChunk)
      (log : List Effect),
      nodes = pre ++ rest → tiledFrom p rest → 0 ≤ p → p + (sizes rest).sum < 2 ^ 63 →
      0 < length → length < 2 ^ 32 → p ≤ offset → offset + length ≤ p + (sizes rest).sum →
      (∀ e rest', rest = e :: rest' → offset < p + e.size ∨ offset = p) →
      (∃ new, (create_chunk_loop env prot pre.length rest offset length chunk log).1 =
            .ok (some (chunk ++ new)) ∧
          covers nodes offset length new ∧ min_parts nodes offset length new) ∨
      ((create_chunk_loop env prot pre.length rest offset length chunk log).1 = .ok none ∧
        ¬ env.maps_all) := by
  induction rest with
  | nil =>
    intro pre p offset length chunk log _ _ _ _ hl0 _ hoff hend _
    simp only [sizes, List.map_nil, List.sum_nil] at hend
    omega
  | cons e rest ih =>
    intro pre p offset length chunk log hnodes ht hp0 hfit hl0 hl1 hoff hend hhead
    obtain ⟨hpos, hsz, htail⟩ := ht
    have hnn := tiledFrom_sum_nonneg rest _ htail
    have hsum : (sizes (e :: rest)).sum = e.size + (sizes rest).sum := by simp [sizes]
    rw [hsum] at hfit hend
    have hne : length ≠ 0 := by omega
    have hget : nodes[pre.length]? = some e := by
      rw [hnodes, List.getElem?_append_right (le_refl _)]; simp
    have hnodes' : nodes = (pre ++ [e]) ++ rest := by simp [hnodes]
    have hlen' : (pre ++ [e]).length = pre.length + 1 := by simp
    rw [create_chunk_loop, if_neg hne]
    by_cases hz : e.size = 0
    · rw [if_pos hz]
      have hop : offset = p := by
        rcases hhead e rest rfl with h | h
        · omega
        · exact h
      have := ih (pre ++ [e]) (p + e.size) offset length chunk log hnodes' htail (by omega)
        (by omega) hl0 hl1 (by omega) (by omega) (fun _ _ _ => Or.inr (by omega))
      rw [hlen'] at this
      exact this
    · rw [if_neg hz]
      have hlt : offset < p + e.size := by
        rcases hhead e rest rfl with h | h
        · exact h
        · omega
      rw [create_chunk_part_eq env pre.length e offset length prot (by omega) (by omega)
        (by omega) (by omega) hl0 hl1]
      cases hprep : env.prepare pre.length prot 0 with
      | false =>
        right
        exact ⟨by simp, not_maps_all_of_prepare env _ _ _ hprep⟩
      | true =>
        cases hmap : env.create_chunk pre.length (offset - e.position)
            (min length (e.size - (offset - e.position))) prot with
        | none =>
          right
          exact ⟨by simp, not_maps_all_of_create env _ _ _ _ (by omega) hmap⟩
        | some n =>
          have hn := hexact _ _ _ _ _ (by omega) hmap
          have hn0 : ¬ n = 0 := by omega
          have hn1 : ¬ ((n : Int) > length) := by omega
          have hw1 : wrapOff (offset + n) = offset + n :=
            wrapOff_of_range _ ⟨by omega, by omega⟩
          have hw2 : wrapU32 (length - n) = length - n :=
            wrapU32_of_range _ (by omega) (by omega)
          simp only [Bool.not_true, Bool.false_eq_true, if_false, Option.map_some',
            if_neg hn0, if_neg hn1, hw1, hw2]
          have hcov : ∃ e', nodes[pre.length]? = some e' ∧
              e'.position + (offset - e.position) = offset ∧ 0 ≤ offset - e.position ∧
              offset - e.position + (n : Int) ≤ e'.size :=
            ⟨e, hget, by omega, by omega, by omega⟩
          have hmin : ∃ e', nodes[pre.length]? = some e' ∧ e'.size ≠ 0 ∧
              offset - e.position = offset - e'.position ∧
              (n : Int) = min length (e'.size - (offset - e'.position)) :=
            ⟨e, hget, hz, rfl, hn⟩
          by_cases hdone : length - (n : Int) = 0
          · left
            refine ⟨[⟨pre.length, offset - e.position, n⟩], ?_, ?_, ?_⟩
            · rw [hdone, create_chunk_loop_done]
              simp
            · exact ⟨hcov, Nat.pos_of_ne_zero hn0, hdone⟩
            · exact ⟨hmin, Nat.pos_of_ne_zero hn0, trivial⟩
          · have hrec := ih (pre ++ [e]) (p + e.size) (offset + n) (length - n)
              (chunk ++ [⟨pre.length, offset - e.position, n⟩])
              (log ++ [.prepare pre.length prot 0,
                .create_chunk pre.length (offset - e.position)
                  (min length (e.size - (offset - e.position))) prot])
              hnodes' htail (by omega) (by omega) (by omega) (by omega) (by omega) (by omega)
              (fun _ _ _ => Or.inr (by omega))
            rw [hlen'] at hrec
            rcases hrec with ⟨new, hres, hc, hm⟩ | ⟨hres, hfail⟩
            · left
              refine ⟨⟨pre.length, offset - e.position, n⟩ :: new, ?_, ?_, ?_⟩
              · rw [hres]; simp
              · exact ⟨hcov, Nat.pos_of_ne_zero hn0, hc⟩
              · exact ⟨hmin, Nat.pos_of_ne_zero hn0, hm⟩
            · right
              exact ⟨hres, hfail⟩

theorem create_chunk_part_cases (env : Env) (itr : Nat) (e : EntryListNode)
    (offset length : Int) (prot : Nat) :
    (create_chunk_part env itr e offset length prot =
        (.error (.internal_error "EntryList::chunk_part(...) caught a negative offset"), [])) ∨
    (∃ fx, create_chunk_part env itr e offset length prot = (.ok none, fx)) ∨
    (∃ mc fx, create_chunk_part env itr e offset length prot = (.ok (some mc), fx) ∧
      ∀ a ∈ fx, ¬ a.failed env) := by
  unfold create_chunk_part
  simp only
  split_ifs with h1 h2
  · left; rfl
  · right; left; exact ⟨_, rfl⟩
  · right
    cases hmap : env.create_chunk itr (wrapOff (offset - e.position))
        (wrapU32 (min length (wrapOff (e.size - wrapOff (offset - e.position))))) prot with
    | none => left; exact ⟨_, rfl⟩
    | some n =>
      right
      refine ⟨_, _, rfl, ?_⟩
      intro a ha
      simp only [List.mem_cons, List.mem_singleton, List.not_mem_nil, or_false] at ha
      rcases ha with rfl | rfl
      · simp only [Effect.failed]
        simpa using h2
      · simp [Effect.failed, hmap]

theorem create_chunk_loop_error (env : Env) (prot : Nat) (rest : List EntryListNode) :
    ∀ (itr : Nat) (offset length : Int) (chunk : List MemoryChunk) (log : List Effect)
      (err : Error),
      (create_chunk_loop env prot itr rest offset length chunk log).1 = .error err →
      err ∈ walk_errors := by
  induction rest with
  | nil =>
    intro itr offset length chunk log err h
    rw [create_chunk_loop] at h
    split_ifs at h
    simp_all [walk_errors]
  | cons e rest ih =>
    intro itr offset length chunk log err h
    rw [create_chunk_loop] at h
    by_cases h1 : length = 0
    · rw [if_pos h1] at h
      split_ifs at h
    rw [if_neg h1] at h
    by_cases h2 : e.size = 0
    · rw [if_pos h2] at h
      exact ih _ _ _ _ _ _ h
    rw [if_neg h2] at h
    rcases create_chunk_part_cases env itr e offset length prot with hp | ⟨fx, hp⟩ |
      ⟨mc, fx, hp, _⟩
    · rw [hp] at h
      simp only [Except.error.injEq] at h
      subst h
      simp [walk_errors]
    · rw [hp] at h
      simp at h
    · rw [hp] at h
      simp only at h
      by_cases h4 : mc.size = 0
      · rw [if_pos h4] at h
        simp only [Except.error.injEq] at h
        subst h
        simp [walk_errors]
      rw [if_neg h4] at h
      by_cases h5 : (mc.size : Int) > length
      · rw [if_pos h5] at h
        simp only [Except.error.injEq] at h
        subst h
        simp [walk_errors]
      rw [if_neg h5] at h
      exact ih _ _ _ _ _ _ h

theorem create_chunk_loop_failed (env : Env) (prot : Nat) (rest : List EntryListNode) :
    ∀ (itr : Nat) (offset length : Int) (chunk : List MemoryChunk) (log : List Effect),
      (∃ a ∈ (create_chunk_loop env prot itr rest offset length chunk log).2, a.failed env) →
      (∃ a ∈ log, a.failed env) ∨
        (create_chunk_loop env prot itr rest offset length chunk log).1 = .ok none := by
  induction rest with
  | nil =>
    intro itr offset length chunk log h
    rw [create_chunk_loop] at h
    split_ifs at h <;> exact Or.inl h
  | cons e rest ih =>
    intro itr offset length chunk log h
    rw [create_chunk_loop] at h ⊢
    by_cases h1 : length = 0
    · rw [if_pos h1] at h
      exact Or.inl h
    rw [if_neg h1] at h ⊢
    by_cases h2 : e.size = 0
    · rw [if_pos h2] at h ⊢
      exact ih _ _ _ _ _ h
    rw [if_neg h2] at h ⊢
    rcases create_chunk_part_cases env itr e offset length prot with hp | ⟨fx, hp⟩ |
      ⟨mc, fx, hp, hfx⟩
    · rw [hp] at h
      left
      simpa using h
    · rw [hp]
      right
      rfl
    · rw [hp] at h ⊢
      simp only at h ⊢
      have hlog : (∃ a ∈ log ++ fx, a.failed env) → ∃ a ∈ log, a.failed env := by
        rintro ⟨a, ha, hf⟩
        rcases List.mem_append.1 ha with ha | ha
        · exact ⟨a, ha, hf⟩
        · exact absurd hf (hfx a ha)
      by_cases h4 : mc.size = 0
      · rw [if_pos h4] at h
        exact Or.inl (hlog h)
      rw [if_neg h4] at h ⊢
      by_cases h5 : (mc.size : Int) > length
      · rw [if_pos h5] at h
        exact Or.inl (hlog h)
      rw [if_neg h5] at h ⊢
      rcases ih _ _ _ _ _ h with h' | h'
      · exact Or.inl (hlog h')
      · exact Or.inr h'

theorem create_chunk_loop_sum (env : Env) (prot : Nat) (rest : List EntryListNode) :
    ∀ (itr : Nat) (offset length : Int) (chunk : List MemoryChunk) (log : List Effect)
      (parts : List MemoryChunk), 0 ≤ length → length < 2 ^ 32 →
      (create_chunk_loop env prot itr rest offset length chunk log).1 = .ok (some parts) →
      chunk_size parts = chunk_size chunk + length := by
  induction rest with
  | nil =>
    intro itr offset length chunk log parts _ _ h
    rw [create_chunk_loop] at h
    by_cases h1 : length = 0
    · rw [if_pos h1] at h
      split_ifs at h
      · simp at h
      · simp only [Except.ok.injEq, Option.some.injEq] at h
        subst h; omega
    · rw [if_neg h1] at h
      simp at h
  | cons e rest ih =>
    intro itr offset length chunk log parts hl0 hl1 h
    rw [create_chunk_loop] at h
    by_cases h1 : length = 0
    · rw [if_pos h1] at h
      split_ifs at h
      · simp at h
      · simp only [Except.ok.injEq, Option.some.injEq] at h
        subst h; omega
    rw [if_neg h1] at h
    by_cases h2 : e.size = 0
    · rw [if_pos h2] at h
      exact ih _ _ _ _ _ _ hl0 hl1 h
    rw [if_neg h2] at h
    rcases create_chunk_part_cases env itr e offset length prot with hp | ⟨fx, hp⟩ |
      ⟨mc, fx, hp, _⟩
    · rw [hp] at h
      simp at h
    · rw [hp] at h
      simp at h
    · rw [hp] at h
      simp only at h
      by_cases h4 : mc.size = 0
      · rw [if_pos h4] at h
        simp at h
      rw [if_neg h4] at h
      by_cases h5 : (mc.size : Int) > length
      · rw [if_pos h5] at h
        simp at h
      rw [if_neg h5] at h
      have hw : wrapU32 (length - mc.size) = length - mc.size :=
        wrapU32_of_range _ (by omega) (by omega)
      rw [hw] at h
      have := ih _ _ _ _ _ _ (by omega) (by omega) h
      simp only [chunk_size, List.map_append, List.sum_append, List.map_cons, List.map_nil,
        List.sum_cons, List.sum_nil] at this ⊢
      omega

theorem find_valid_spec (offset : Int) (nodes : List EntryListNode) :
    ∀ p : Int, tiledFrom p nodes → 0 ≤ p → p + (sizes nodes).sum < 2 ^ 63 → p ≤ offset →
      offset < p + (sizes nodes).sum →
      ∃ pre e rest q, nodes = pre ++ e :: rest ∧
        pre.length = nodes.findIdx (fun e => e.is_valid_position offset) ∧
        tiledFrom q (e :: rest) ∧ 0 ≤ q ∧ q ≤ offset ∧ offset < q + e.size ∧
        q + (sizes (e :: rest)).sum = p + (sizes nodes).sum := by
  induction nodes with
  | nil =>
    intro p _ _ _ hlo hhi
    simp only [sizes, List.map_nil, List.sum_nil] at hhi
    omega
  | cons e rest ih =>
    intro p ht hp0 hfit hlo hhi
    obtain ⟨hpos, hsz, htail⟩ := ht
    have hnn := tiledFrom_sum_nonneg rest _ htail
    have hsum : (sizes (e :: rest)).sum = e.size + (sizes rest).sum := by simp [sizes]
    rw [hsum] at hfit hhi
    have hw : wrapOff (p + e.size) = p + e.size :=
      wrapOff_of_range _ ⟨by omega, by omega⟩
    by_cases hv : offset < p + e.size
    · refine ⟨[], e, rest, p, rfl, ?_, ⟨hpos, hsz, htail⟩, hp0, hlo, hv, by simp⟩
      have : e.is_valid_position offset = true := by
        simp only [EntryListNode.is_valid_position, hpos, hw, Bool.and_eq_true,
          decide_eq_true_eq]
        exact ⟨hlo, hv⟩
      simp [List.findIdx_cons, this]
    · obtain ⟨pre, e', rest', q, hsplit, hlen, ht', hq0, hq1, hq2, hq3⟩ :=
        ih (p + e.size) htail (by omega) (by omega) (by omega) (by omega)
      refine ⟨e :: pre, e', rest', q, by simp [hsplit], ?_, ht', hq0, hq1, hq2, ?_⟩
      · have : e.is_valid_position offset = false := by
          simp only [EntryListNode.is_valid_position, hpos, hw, Bool.and_eq_false_imp,
            decide_eq_true_eq, decide_eq_false_iff_not]
          intro _; exact hv
        simp [List.findIdx_cons, this, hlen]
      · rw [hq3, hsum]; omega

/-- The walk of `create_chunk` on a tiled entry list, for a request of
positive length inside the byte space and mappings of the exact size: no
error; either a chunk whose parts lie one after the other over the request
with the sizes of the minimum rule, or `NULL` after a mapping that failed. -/
theorem create_chunk_spec (T : TotalType) (env : Env) (l : EntryList) (offset length : Int)
    (prot : Nat) (hexact : env.exact) (hl : l.Tiled) (h0 : 0 ≤ offset) (hlen0 : 0 < length)
    (hlen1 : length < 2 ^ 32) (hend : offset + length ≤ l.m_bytesSize) :
    (∃ parts, (l.create_chunk T env offset length prot).1 = .ok (some parts) ∧
        covers l.nodes offset length parts ∧ min_parts l.nodes offset length parts) ∨
      ((l.create_chunk T env offset length prot).1 = .ok none ∧ ¬ env.maps_all) := by
  have htot := hl.total
  have hb := hl.bound
  have hw : T.conv (wrapOff (offset + length)) = offset + length := by
    rw [wrapOff_of_range _ ⟨by omega, by omega⟩]
    exact conv_of_range T _ (by omega) (by omega)
  obtain ⟨pre, e, rest, q, hsplit, hlen, ht, hq0, hq1, hq2, hq3⟩ :=
    find_valid_spec offset l.nodes 0 hl.tiled (by omega) (by omega) h0 (by omega)
  have hdrop : l.nodes.drop pre.length = e :: rest := by
    rw [hsplit]; simp
  unfold EntryList.create_chunk
  rw [hw, if_neg (by omega)]
  simp only
  rw [← hlen, hdrop]
  have := create_chunk_loop_spec env prot l.nodes hexact (e :: rest) pre q offset length [] []
    hsplit ht hq0 (by omega) hlen0 hlen1 hq1 (by omega)
    (fun e' rest' h => by
      simp only [List.cons.injEq] at h
      obtain ⟨rfl, _⟩ := h
      exact Or.inl hq2)
  simpa using this

theorem covers_sum (nodes : List EntryListNode) (parts : List MemoryChunk) :
    ∀ off len : Int, covers nodes off len parts → chunk_size parts = len := by
  induction parts with
  | nil => intro off len h; simp only [covers] at h; simp [chunk_size, h]
  | cons mc rest ih =>
    intro off len h
    have := ih _ _ h.2.2
    simp only [chunk_size, List.map_cons, List.sum_cons] at this ⊢
    omega

theorem create_chunk_zero (T : TotalType) (env : Env) (l : EntryList) (offset : Int)
    (prot : Nat) (hl : l.Tiled) (h0 : 0 ≤ offset) (hend : offset ≤ l.m_bytesSize) :
    l.create_chunk T env offset 0 prot = (.ok none, []) := by
  have hb := hl.bound
  have hw : T.conv (wrapOff (offset + 0)) = offset := by
    rw [add_zero, wrapOff_of_range _ ⟨by omega, by omega⟩]
    exact conv_of_range T _ (by omega) (by omega)
  unfold EntryList.create_chunk
  rw [hw, if_neg (by omega)]
  simp only
  rw [create_chunk_loop_done]
  rfl

/-! ## `create_chunk`: the statements -/

/-- C2, amended. On an entry list that tiles the byte space, for a request
with offset at least 0 and end inside the total, when every mapping succeeds
with the size asked for: if the length is more than 0, create_chunk returns a
chunk whose parts lie one after the other from the offset on, without gap or
overlap, and whose sizes sum to the length; if the length is 0, it returns no
chunk (NULL) and calls no file. -/
theorem create_chunk_covers (T : TotalType) (env : Env) (l : EntryList) (offset length : Int)
    (prot : Nat) (hall : env.maps_all) (hexact : env.exact) (hl : l.Tiled) (h0 : 0 ≤ offset)
    (hlen0 : 0 ≤ length) (hlen1 : length < 2 ^ 32) (hend : offset + length ≤ l.m_bytesSize) :
    (0 < length →
      ∃ parts, (l.create_chunk T env offset length prot).1 = .ok (some parts) ∧
        covers l.nodes offset length parts ∧ chunk_size parts = length) ∧
    (length = 0 →
      (l.create_chunk T env offset length prot).1 = .ok none ∧
        (l.create_chunk T env offset length prot).2 = []) := by
  constructor
  · intro hpos
    rcases create_chunk_spec T env l offset length prot hexact hl h0 hpos hlen1 hend with
      ⟨parts, hres, hc, _⟩ | ⟨_, hfail⟩
    · exact ⟨parts, hres, hc, covers_sum _ _ _ _ hc⟩
    · exact absurd hall hfail
  · intro hz
    subst hz
    rw [create_chunk_zero T env l offset prot hl h0 (by omega)]
    exact ⟨rfl, rfl⟩

/-- Witness of C2: the requests (5, 20) and (20, 0) on three files of 10 bytes. -/
theorem create_chunk_covers_witness :
    (∃ parts, (abc.create_chunk .off_t env_ok 5 20 prot_read).1 = .ok (some parts) ∧
      covers abc.nodes 5 20 parts ∧ chunk_size parts = 20) ∧
    ((abc.create_chunk .off_t env_ok 20 0 prot_read).1 = .ok none ∧
      (abc.create_chunk .off_t env_ok 20 0 prot_read).2 = []) :=
  ⟨(create_chunk_covers .off_t env_ok abc 5 20 prot_read env_ok_maps_all env_ok_exact abc_tiled
      (by decide) (by decide) (by decide) (by decide)).1 (by decide),
   (create_chunk_covers .off_t env_ok abc 20 0 prot_read env_ok_maps_all env_ok_exact abc_tiled
      (by decide) (by decide) (by decide) (by decide)).2 rfl⟩

/-- C2 as stated fails for a request of length 0: on three files of 10 bytes,
with every mapping succeeding, create_chunk(5, 0) returns NULL and no chunk. -/
theorem create_chunk_zero_length_null :
    abc.Tiled ∧ env_ok.maps_all ∧ (0 : Int) ≤ 5 ∧ (5 : Int) + 0 ≤ abc.m_bytesSize ∧
      (abc.create_chunk .off_t env_ok 5 0 prot_read).1 = .ok none ∧
      ¬ ∃ parts, (abc.create_chunk .off_t env_ok 5 0 prot_read).1 = .ok (some parts) := by
  refine ⟨abc_tiled, env_ok_maps_all, by decide, by decide, by decide, ?_⟩
  rintro ⟨parts, h⟩
  have h' : (abc.create_chunk .off_t env_ok 5 0 prot_read).1 = .ok none := by decide
  rw [h'] at h
  simp at h

/-- C3. On an entry list that tiles the byte space, for a request inside the
total and mappings of the exact size, create_chunk returns NULL or a chunk in
which every part has the size min(remaining length, bytes left in its file
from the current offset), that size is positive and the file of the part is
not empty. For files A, B, C of 10 bytes each the request (5, 20) gives three
parts: 5 bytes of A from file offset 5, 10 bytes of B, 5 bytes of C. -/
theorem create_chunk_min_parts (T : TotalType) (env : Env) (l : EntryList)
    (offset length : Int) (prot : Nat) (hexact : env.exact) (hl : l.Tiled) (h0 : 0 ≤ offset)
    (hlen0 : 0 ≤ length) (hlen1 : length < 2 ^ 32) (hend : offset + length ≤ l.m_bytesSize) :
    ((∃ parts, (l.create_chunk T env offset length prot).1 = .ok (some parts) ∧
          min_parts l.nodes offset length parts) ∨
        (l.create_chunk T env offset length prot).1 = .ok none) ∧
      (abc.create_chunk T env_ok 5 20 prot).1 =
        .ok (some [⟨0, 5, 5⟩, ⟨1, 0, 10⟩, ⟨2, 0, 5⟩]) := by
  constructor
  · by_cases hz : length = 0
    · right
      subst hz
      have hb := hl.bound
      have hw : T.conv (wrapOff (offset + 0)) = offset := by
        rw [add_zero, wrapOff_of_range _ ⟨by omega, by omega⟩]
        exact conv_of_range T _ (by omega) (by omega)
      unfold EntryList.create_chunk
      rw [hw, if_neg (by omega)]
      simp only
      rw [create_chunk_loop_done]
      rfl
    · rcases create_chunk_spec T env l offset length prot hexact hl h0 (by omega) hlen1 hend
        with ⟨parts, hres, _, hm⟩ | ⟨hres, _⟩
      · exact Or.inl ⟨parts, hres, hm⟩
      · exact Or.inr hres
  · cases T <;> rfl

/-- Witness of C3: the request (5, 20) on three files of 10 bytes. -/
theorem create_chunk_min_parts_witness :
    ((∃ parts, (abc.create_chunk .uint64_t env_ok 5 20 prot_read).1 = .ok (some parts) ∧
          min_parts abc.nodes 5 20 parts) ∨
        (abc.create_chunk .uint64_t env_ok 5 20 prot_read).1 = .ok none) ∧
      (abc.create_chunk .uint64_t env_ok 5 20 prot_read).1 =
        .ok (some [⟨0, 5, 5⟩, ⟨1, 0, 10⟩, ⟨2, 0, 5⟩]) :=
  create_chunk_min_parts .uint64_t env_ok abc 5 20 prot_read env_ok_exact abc_tiled
    (by decide) (by decide) (by decide) (by decide)

/-- C8. For an offset that is not negative and a length whose sum with the
offset is an off_t value, create_chunk throws the out of range error exactly
when offset + length is more than the total m_bytesSize, and it has then made
no prepare or mapping call. -/
theorem create_chunk_range_error (T : TotalType) (env : Env) (l : EntryList)
    (offset length : Int) (prot : Nat) (h0 : 0 ≤ offset) (hlen0 : 0 ≤ length)
    (hfit : offset + length < 2 ^ 63) :
    ((l.create_chunk T env offset length prot).1 =
          .error (.internal_error "Tried to access chunk out of range in EntryList") ↔
        offset + length > l.m_bytesSize) ∧
      (offset + length > l.m_bytesSize → (l.create_chunk T env offset length prot).2 = []) := by
  have hw : T.conv (wrapOff (offset + length)) = offset + length := by
    rw [wrapOff_of_range _ ⟨by omega, by omega⟩]
    exact conv_of_range T _ (by omega) (by omega)
  unfold EntryList.create_chunk
  rw [hw]
  by_cases hgt : offset + length > l.m_bytesSize
  · rw [if_pos hgt]
    simp [hgt]
  · rw [if_neg hgt]
    simp only [hgt, iff_false, false_implies, and_true]
    intro h
    have := create_chunk_loop_error env prot _ _ _ _ _ _ _ h
    revert this
    decide

/-- Witness of C8: the request (25, 10) on three files of 10 bytes. -/
theorem create_chunk_range_error_witness :
    ((abc.create_chunk .off_t env_ok 25 10 prot_read).1 =
          .error (.internal_error "Tried to access chunk out of range in EntryList") ↔
        (25 : Int) + 10 > abc.m_bytesSize) ∧
      ((25 : Int) + 10 > abc.m_bytesSize →
        (abc.create_chunk .off_t env_ok 25 10 prot_read).2 = []) :=
  create_chunk_range_error .off_t env_ok abc 25 10 prot_read (by decide) (by decide)
    (by decide)

/-- C9. For a length that is a uint32_t value: when a prepare or mapping call
made by create_chunk fails, the result is NULL; and a result that is not NULL
has parts whose sizes sum to the whole length, which on an entry list that
tiles the byte space (request inside the total, mappings of the exact size)
lie one after the other over the whole range from offset to offset + length. -/
theorem create_chunk_whole_or_null (T : TotalType) (env : Env) (l : EntryList)
    (offset length : Int) (prot : Nat) (hlen0 : 0 ≤ length) (hlen1 : length < 2 ^ 32) :
    ((∃ a ∈ (l.create_chunk T env offset length prot).2, a.failed env) →
        (l.create_chunk T env offset length prot).1 = .ok none) ∧
      (∀ parts, (l.create_chunk T env offset length prot).1 = .ok (some parts) →
        chunk_size parts = length ∧
          (l.Tiled → env.exact → 0 ≤ offset → offset + length ≤ l.m_bytesSize →
            covers l.nodes offset length parts)) := by
  constructor
  · intro h
    unfold EntryList.create_chunk at h ⊢
    by_cases hgt : T.conv (wrapOff (offset + length)) > l.m_bytesSize
    · rw [if_pos hgt] at h
      simp at h
    · rw [if_neg hgt] at h ⊢
      rcases create_chunk_loop_failed env prot _ _ _ _ _ _ h with h' | h'
      · simp at h'
      · exact h'
  · intro parts hres
    constructor
    · unfold EntryList.create_chunk at hres
      by_cases hgt : T.conv (wrapOff (offset + length)) > l.m_bytesSize
      · rw [if_pos hgt] at hres
        simp at hres
      · rw [if_neg hgt] at hres
        have := create_chunk_loop_sum env prot _ _ _ _ _ _ _ hlen0 hlen1 hres
        simpa [chunk_size] using this
    · intro hl hexact h0 hend
      have hne : length ≠ 0 := by
        rintro rfl
        have hb := hl.bound
        have hw : T.conv (wrapOff (offset + 0)) = offset := by
          rw [add_zero, wrapOff_of_range _ ⟨by omega, by omega⟩]
          exact conv_of_range T _ (by omega) (by omega)
        unfold EntryList.create_chunk at hres
        rw [hw, if_neg (by omega)] at hres
        simp only at hres
        rw [create_chunk_loop_done] at hres
        simp at hres
      rcases create_chunk_spec T env l offset length prot hexact hl h0 (by omega) hlen1 hend
        with ⟨parts', hres', hc, _⟩ | ⟨hres', _⟩
      · rw [hres'] at hres
        simp only [Except.ok.injEq, Option.some.injEq] at hres
        subst hres
        exact hc
      · rw [hres'] at hres
        simp at hres

/-- Witness of C9: the request (5, 20) on three files of 10 bytes when only
the file of A can be opened. -/
theorem create_chunk_whole_or_null_witness :
    (abc.create_chunk .off_t env_first_only 5 20 prot_read).1 = .ok none :=
  (create_chunk_whole_or_null .off_t env_first_only abc 5 20 prot_read (by decide)
    (by decide)).1 ⟨.prepare 1 prot_read 0, by decide, rfl⟩

/-! ## The endgame switch -/

/-- C4. update_endgame called with the aggressive flag unset (the sum of the
three terms being a size_t value) sets the flag exactly when
chunks_completed + transfer list size + 5 >= chunk_total; with total 100 and
4 chunks in progress, 90 completed leaves it unset and 91 completed sets it. -/
theorem update_endgame_iff (d : DownloadMain) (hflag : d.aggressive = false)
    (hfit : d.chunks_completed + d.transfer_list_size + 5 < 2 ^ 64) :
    ((d.update_endgame).aggressive = true ↔
        d.chunks_completed + d.transfer_list_size + 5 ≥ d.chunk_total) ∧
      (({ chunks_completed := 90, transfer_list_size := 4, chunk_total := 100 } :
          DownloadMain).update_endgame).aggressive = false ∧
      (({ chunks_completed := 91, transfer_list_size := 4, chunk_total := 100 } :
          DownloadMain).update_endgame).aggressive = true := by
  refine ⟨?_, by decide, by decide⟩
  have hw : wrapSize (d.chunks_completed + d.transfer_list_size + 5) =
      d.chunks_completed + d.transfer_list_size + 5 := by
    unfold wrapSize; omega
  unfold DownloadMain.update_endgame
  rw [hw, hflag]
  by_cases h : d.chunks_completed + d.transfer_list_size + 5 ≥ d.chunk_total
  · simp [h]
  · simp [h, hflag]

/-- Witness of C4: an open, active download with 91 of 100 chunks completed
and 4 in progress. -/
theorem update_endgame_iff_witness :
    ((({ is_open := true, is_active := true, chunks_completed := 91, transfer_list_size := 4,
          chunk_total := 100 } : DownloadMain).update_endgame).aggressive = true ↔
        91 + 4 + 5 ≥ 100) ∧
      (({ chunks_completed := 90, transfer_list_size := 4, chunk_total := 100 } :
          DownloadMain).update_endgame).aggressive = false ∧
      (({ chunks_completed := 91, transfer_list_size := 4, chunk_total := 100 } :
          DownloadMain).update_endgame).aggressive = true :=
  update_endgame_iff
    { is_open := true, is_active := true, chunks_completed := 91, transfer_list_size := 4,
      chunk_total := 100 } rfl (by decide)

theorem step_keeps_aggressive (d : DownloadMain) (ev : Event) (h : d.aggressive = true) :
    (d.step ev).aggressive = true := by
  cases ev with
  | update_endgame => simp [DownloadMain.step, DownloadMain.update_endgame, h]
  | stop =>
    simp only [DownloadMain.step, DownloadMain.stop]
    split_ifs <;> simp [h]
  | counts c n t => simp [DownloadMain.step, h]

/-- C5. Once the aggressive flag is set it stays set: after any sequence of
update_endgame calls, stop calls and changes of the completed, in progress and
total counts (to any values), the flag is still set. -/
theorem endgame_stays_set (d : DownloadMain) (events : List Event)
    (h : d.aggressive = true) : (d.run events).aggressive = true := by
  unfold DownloadMain.run
  induction events generalizing d with
  | nil => simpa using h
  | cons ev rest ih =>
    simp only [List.foldl_cons]
    exact ih _ (step_keeps_aggressive d ev h)

/-- Witness of C5: endgame set at 96 of 100 chunks; the counts then fall to 10
completed and none in progress, update_endgame runs twice and the download is
stopped. -/
theorem endgame_stays_set_witness :
    (({ is_open := true, is_active := true, aggressive := true, chunks_completed := 96,
        chunk_total := 100 } : DownloadMain).run
      [.update_endgame, .counts 10 0 100, .update_endgame, .stop]).aggressive = true :=
  endgame_stays_set _ _ rfl

/-! ## `open`: what a failed call leaves behind -/

/-- C10, the code at the failing input: three files under the root dl, no
mount root recorded, the file of B cannot be opened. open throws the storage
error, the list stays closed and the two handles registered through the
insert slot are released, but m_indirectLinks, empty before the call, now
holds the root. -/
theorem open_failure_keeps_root_link :
    (abc.open env_first_only).result =
        .error (.storage_error "Could not open file \"dl/B\": Permission denied") ∧
      (abc.open env_first_only).list.m_isOpen = abc.m_isOpen ∧
      registered (abc.open env_first_only).effects = [] ∧
      abc.m_indirectLinks = [] ∧
      (abc.open env_first_only).list.m_indirectLinks = ["dl"] := by
  decide

/-! ## `close` -/

theorem set_handle_get (b : Bool) (nodes : List EntryListNode) :
    ∀ (n i : Nat), (set_handle b n nodes)[i]? =
      (nodes[i]?).map (fun e =>
        if i = n then { e with file_meta := { e.file_meta with is_open := b } } else e) := by
  induction nodes with
  | nil => intro n i; simp [set_handle]
  | cons e rest ih =>
    intro n i
    cases n with
    | zero =>
      cases i with
      | zero => simp [set_handle]
      | succ j => simp [set_handle]
    | succ m =>
      cases i with
      | zero => simp [set_handle]
      | succ j => simp [set_handle, ih m j]

theorem erase_upto_succ (n : Nat) (l : EntryList) :
    erase_upto (n + 1) l =
      { erase_upto n l with nodes := set_handle false n (erase_upto n l).nodes } := by
  simp [erase_upto, List.range_succ, List.foldl_append]

theorem erase_upto_fields (n : Nat) (l : EntryList) :
    (erase_upto n l).m_isOpen = l.m_isOpen ∧ (erase_upto n l).m_rootDir = l.m_rootDir ∧
      (erase_upto n l).m_indirectLinks = l.m_indirectLinks ∧
      (erase_upto n l).m_bytesSize = l.m_bytesSize := by
  induction n with
  | zero => simp [erase_upto]
  | succ n ih => rw [erase_upto_succ]; exact ih

theorem erase_upto_get (l : EntryList) :
    ∀ (n i : Nat), (erase_upto n l).nodes[i]? =
      (l.nodes[i]?).map (fun e => if i < n then released e else e) := by
  intro n
  induction n with
  | zero => intro i; simp [erase_upto]
  | succ n ih =>
    intro i
    rw [erase_upto_succ]
    simp only [set_handle_get, ih]
    cases l.nodes[i]? with
    | none => rfl
    | some e =>
      simp only [Option.map_some', Option.some.injEq]
      by_cases h1 : i = n
      · subst h1; simp [released]
      · by_cases h2 : i < n
        · have : i < n + 1 := by omega
          simp [h1, h2, this]
        · have : ¬ i < n + 1 := by omega
          simp [h1, h2, this]

theorem erase_upto_all (l : EntryList) :
    (erase_upto l.nodes.length l).nodes = l.nodes.map released := by
  apply List.ext_getElem?
  intro i
  rw [erase_upto_get, List.getElem?_map]
  cases h : l.nodes[i]? with
  | none => rfl
  | some e =>
    have hi : i < l.nodes.length := by
      by_contra hc
      rw [List.getElem?_eq_none (by omega)] at h
      simp at h
    simp [hi]

/-- C11. close on an open entry list calls the erase slot once for every
entry, in order, leaves every entry with a released handle and a completed
counter of 0, clears m_indirectLinks and marks the list closed; on a closed
list it changes nothing and makes no call, so a second close after a close
changes nothing. -/
theorem close_releases (l : EntryList) :
    (l.m_isOpen = true →
      (l.close).effects = (List.range l.nodes.length).map Effect.slot_erase ∧
      (l.close).list.nodes = l.nodes.map (fun e =>
        { e with completed := 0, file_meta := { e.file_meta with is_open := false } }) ∧
      (l.close).list.m_indirectLinks = [] ∧ (l.close).list.m_isOpen = false ∧
      (l.close).list.m_rootDir = l.m_rootDir ∧ (l.close).list.m_bytesSize = l.m_bytesSize) ∧
    (l.m_isOpen = false → (l.close).list = l ∧ (l.close).effects = []) ∧
    ((l.close).list.close).list = (l.close).list ∧ ((l.close).list.close).effects = [] ∧
    (l.close).result = .ok () := by
  have hclosed : ∀ l' : EntryList, l'.m_isOpen = false →
      (l'.close).list = l' ∧ (l'.close).effects = [] := by
    intro l' h
    simp [EntryList.close, h]
  have hafter : (l.close).list.m_isOpen = false := by
    cases h : l.m_isOpen <;> simp [EntryList.close, h]
  refine ⟨?_, hclosed l, (hclosed _ hafter).1, (hclosed _ hafter).2, ?_⟩
  · intro h
    have hf := erase_upto_fields l.nodes.length l
    have hc : l.close =
        ⟨.ok (),
          { erase_upto l.nodes.length l with
            nodes := (erase_upto l.nodes.length l).nodes.map (fun e => { e with completed := 0 }),
            m_isOpen := false,
            m_indirectLinks := [] },
          (List.range l.nodes.length).map Effect.slot_erase⟩ := by
      simp [EntryList.close, h]
    rw [hc]
    refine ⟨rfl, ?_, rfl, rfl, hf.2.1, hf.2.2.2⟩
    simp only [erase_upto_all, List.map_map]
    rfl
  · cases h : l.m_isOpen <;> simp [EntryList.close, h]

/-- Witness of C11: the three files after a successful open, then closed. -/
theorem close_releases_witness :
    ((abc.open env_ok).list.close).effects = (List.range 3).map Effect.slot_erase ∧
    ((abc.open env_ok).list.close).list.nodes = (abc.open env_ok).list.nodes.map (fun e =>
      { e with completed := 0, file_meta := { e.file_meta with is_open := false } }) ∧
    ((abc.open env_ok).list.close).list.m_indirectLinks = [] ∧
    ((abc.open env_ok).list.close).list.m_isOpen = false ∧
    ((abc.open env_ok).list.close).list.m_rootDir = (abc.open env_ok).list.m_rootDir ∧
    ((abc.open env_ok).list.close).list.m_bytesSize = (abc.open env_ok).list.m_bytesSize :=
  (close_releases (abc.open env_ok).list).1 (by decide)

/-! ## `set_root_dir` -/

theorem find_last_not_of_spec (c : Char) (xs : List Char) :
    (find_last_not_of xs c = none → xs = List.replicate xs.length c) ∧
    (∀ i, find_last_not_of xs c = some i →
      xs.take (i + 1) ≠ [] ∧ (xs.take (i + 1)).getLast? ≠ some c ∧
        ∃ k, xs = xs.take (i + 1) ++ List.replicate k c) := by
  induction xs with
  | nil => simp [find_last_not_of]
  | cons x xs ih =>
    obtain ⟨ihn, ihs⟩ := ih
    cases h : find_last_not_of xs c with
    | some j =>
      obtain ⟨hne, hlast, k, hk⟩ := ihs j h
      constructor
      · intro hnone
        simp [find_last_not_of, h] at hnone
      · intro i hi
        simp only [find_last_not_of, h, Option.some.injEq] at hi
        subst hi
        refine ⟨by simp, ?_, k, ?_⟩
        · rw [List.take_succ_cons]
          cases hstem : xs.take (j + 1) with
          | nil => exact absurd hstem hne
          | cons b t =>
            rw [hstem] at hlast
            rw [List.getLast?_cons_cons]
            exact hlast
        · rw [List.take_succ_cons, List.cons_append, ← hk]
    | none =>
      have hrep := ihn h
      by_cases hx : x = c
      · constructor
        · intro _
          rw [List.length_cons, List.replicate_succ, ← hrep, hx]
        · intro i hi
          simp [find_last_not_of, h, hx] at hi
      · constructor
        · intro hnone
          simp [find_last_not_of, h, hx] at hnone
        · intro i hi
          simp only [find_last_not_of, h, ne_eq, hx, not_false_eq_true, if_true,
            Option.some.injEq] at hi
          subst hi
          refine ⟨by simp, ?_, xs.length, ?_⟩
          · simp only [zero_add, List.take_succ_cons, List.take_zero, List.getLast?_singleton,
              ne_eq, Option.some.injEq]
            exact hx
          · simp only [zero_add, List.take_succ_cons, List.take_zero, List.singleton_append,
              List.cons.injEq, true_and]
            exact hrep

theorem new_root_strips (path : String) :
    ∃ (stem : List Char) (k : Nat), path.data = stem ++ List.replicate k '/' ∧
      stem.getLast? ≠ some '/' ∧
      new_root path = if stem = [] then "." else String.mk stem := by
  obtain ⟨hn, hs⟩ := find_last_not_of_spec '/' path.data
  cases h : find_last_not_of path.data '/' with
  | none =>
    refine ⟨[], path.data.length, by simpa using hn h, by simp, ?_⟩
    simp [new_root, h]
  | some i =>
    obtain ⟨hne, hlast, k, hk⟩ := hs i h
    refine ⟨path.data.take (i + 1), k, hk, hlast, ?_⟩
    simp [new_root, h, hne]

theorem set_root_dir_loop_closed (root : String) (nodes : List EntryListNode)
    (h : ∀ e ∈ nodes, e.file_meta.is_open = false) :
    set_root_dir_loop root nodes =
      (.ok (), nodes.map (fun e =>
        { e with file_meta := { e.file_meta with path := root ++ e.path.as_string } })) := by
  induction nodes with
  | nil => rfl
  | cons e rest ih =>
    have he := h e (List.mem_cons_self _ _)
    have hrest := ih (fun e' he' => h e' (List.mem_cons_of_mem _ he'))
    simp [set_root_dir_loop, he, hrest]

theorem set_root_dir_loop_open (root : String) (nodes : List EntryListNode)
    (h : ∃ e ∈ nodes, e.file_meta.is_open = true) :
    (set_root_dir_loop root nodes).1 =
      .error (.internal_error "EntryList::set_root_dir(...) found an already opened file.") := by
  induction nodes with
  | nil => simp at h
  | cons e rest ih =>
    by_cases he : e.file_meta.is_open = true
    · simp [set_root_dir_loop, he]
    · obtain ⟨e', hmem, hopen⟩ := h
      rcases List.mem_cons.1 hmem with rfl | hmem'
      · exact absurd hopen he
      · simp only [set_root_dir_loop, he, Bool.false_eq_true, if_false]
        exact ih ⟨e', hmem', hopen⟩

/-- C12. set_root_dir throws (the internal error of the open file) exactly
when the handle of some entry is open. When it returns, m_rootDir is the path
without its trailing slashes (the path is that stem followed by slashes only,
and the stem does not end in a slash), or "." when nothing remains, as for ""
and "/"; and the path of every entry's file is m_rootDir followed by the
entry's own path, everything else of the entries unchanged. -/
theorem set_root_dir_spec (l : EntryList) (path : String) :
    ((l.set_root_dir path).result =
        .error (.internal_error "EntryList::set_root_dir(...) found an already opened file.") ↔
      ∃ e ∈ l.nodes, e.file_meta.is_open = true) ∧
    ((l.set_root_dir path).result ≠ .ok () ↔ ∃ e ∈ l.nodes, e.file_meta.is_open = true) ∧
    ((l.set_root_dir path).result = .ok () →
      (∃ (stem : List Char) (k : Nat), path.data = stem ++ List.replicate k '/' ∧
        stem.getLast? ≠ some '/' ∧
        (l.set_root_dir path).list.m_rootDir = if stem = [] then "." else String.mk stem) ∧
      (l.set_root_dir path).list.nodes = l.nodes.map (fun e =>
        { e with file_meta :=
          { e.file_meta with
            path := (l.set_root_dir path).list.m_rootDir ++ e.path.as_string } })) ∧
    (l.set_root_dir "").list.m_rootDir = "." ∧ (l.set_root_dir "/").list.m_rootDir = "." := by
  by_cases hopen : ∃ e ∈ l.nodes, e.file_meta.is_open = true
  · have hres := set_root_dir_loop_open (new_root path) l.nodes hopen
    have hres' : (l.set_root_dir path).result =
        .error (.internal_error "EntryList::set_root_dir(...) found an already opened file.") :=
      hres
    refine ⟨⟨fun _ => hopen, fun _ => hres'⟩, ⟨fun _ => hopen, fun _ => ?_⟩, ?_, rfl, rfl⟩
    · rw [hres']; simp
    · intro hok
      rw [hres'] at hok
      simp at hok
  · have hclosed : ∀ e ∈ l.nodes, e.file_meta.is_open = false := by
      intro e he
      cases h : e.file_meta.is_open
      · rfl
      · exact absurd ⟨e, he, h⟩ hopen
    have hloop := set_root_dir_loop_closed (new_root path) l.nodes hclosed
    have hres : (l.set_root_dir path).result = .ok () := by
      simp [EntryList.set_root_dir, hloop]
    refine ⟨⟨fun h => ?_, fun h => absurd h hopen⟩, ⟨fun h => absurd hres h,
      fun h => absurd h hopen⟩, ?_, rfl, rfl⟩
    · rw [hres] at h
      simp at h
    · intro _
      refine ⟨new_root_strips path, ?_⟩
      simp [EntryList.set_root_dir, hloop]

/-- Witness of C12: the three closed files re-rooted at "/srv//". -/
theorem set_root_dir_spec_witness :
    (∃ (stem : List Char) (k : Nat), "/srv//".data = stem ++ List.replicate k '/' ∧
        stem.getLast? ≠ some '/' ∧
        (abc.set_root_dir "/srv//").list.m_rootDir = if stem = [] then "." else String.mk stem) ∧
      (abc.set_root_dir "/srv//").list.nodes = abc.nodes.map (fun e =>
        { e with file_meta :=
          { e.file_meta with
            path := (abc.set_root_dir "/srv//").list.m_rootDir ++ e.path.as_string } }) :=
  (set_root_dir_spec abc "/srv//").2.2.1 (by decide)

theorem set_root_dir_loop_first_open (root : String) (nodes : List EntryListNode)
    (hopen : ∃ e ∈ nodes, e.file_meta.is_open = true) :
    ∃ pre e rest, nodes = pre ++ e :: rest ∧ (∀ x ∈ pre, x.file_meta.is_open = false) ∧
      e.file_meta.is_open = true ∧
      set_root_dir_loop root nodes =
        (.error (.internal_error "EntryList::set_root_dir(...) found an already opened file."),
          pre.map (rerooted root) ++ e :: rest) := by
  induction nodes with
  | nil => obtain ⟨e, he, _⟩ := hopen; cases he
  | cons a tail ih =>
    by_cases ha : a.file_meta.is_open = true
    · exact ⟨[], a, tail, rfl, by simp, ha, by simp [set_root_dir_loop, ha]⟩
    · have ha' : a.file_meta.is_open = false := by simpa using ha
      obtain ⟨e, he, hopen_e⟩ := hopen
      have htail : ∃ e ∈ tail, e.file_meta.is_open = true := by
        rcases List.mem_cons.mp he with h | h
        · rw [h] at hopen_e; exact absurd hopen_e ha
        · exact ⟨e, h, hopen_e⟩
      obtain ⟨pre, x, rest, hsplit, hpre, hx, hloop⟩ := ih htail
      refine ⟨a :: pre, x, rest, by simp [hsplit], ?_, hx, ?_⟩
      · intro y hy
        rcases List.mem_cons.mp hy with h | h
        · rw [h]; exact ha'
        · exact hpre y h
      · simp [set_root_dir_loop, ha', hloop, rerooted]

/-- C13, amended. If the handle of some entry is open, set_root_dir throws
the internal error of the open file and calls nothing outside; the first entry
with an open handle and every entry after it are as before the call, so they
keep their file paths, while m_rootDir already holds the new root and every
entry before the first open one already has its file path under the new root.
Nothing else of the entry list changes. -/
theorem set_root_dir_refusal (l : EntryList) (path : String)
    (hopen : ∃ e ∈ l.nodes, e.file_meta.is_open = true) :
    (l.set_root_dir path).result =
        .error (.internal_error "EntryList::set_root_dir(...) found an already opened file.") ∧
      (l.set_root_dir path).effects = [] ∧
      (l.set_root_dir path).list.m_rootDir = new_root path ∧
      ∃ pre e rest, l.nodes = pre ++ e :: rest ∧
        (∀ x ∈ pre, x.file_meta.is_open = false) ∧ e.file_meta.is_open = true ∧
        (l.set_root_dir path).list =
          { l with m_rootDir := new_root path,
                   nodes := pre.map (rerooted (new_root path)) ++ e :: rest } := by
  obtain ⟨pre, e, rest, hsplit, hpre, he, hloop⟩ :=
    set_root_dir_loop_first_open (new_root path) l.nodes hopen
  refine ⟨?_, rfl, rfl, pre, e, rest, hsplit, hpre, he, ?_⟩
  · simp [EntryList.set_root_dir, hloop]
  · simp [EntryList.set_root_dir, hloop]

/-- Witness of C13: the three files with the handle of B open, re-rooted at
"/srv/". -/
theorem set_root_dir_refusal_witness :
    (abc_b_open.set_root_dir "/srv/").result =
        .error (.internal_error "EntryList::set_root_dir(...) found an already opened file.") ∧
      (abc_b_open.set_root_dir "/srv/").effects = [] ∧
      (abc_b_open.set_root_dir "/srv/").list.m_rootDir = new_root "/srv/" ∧
      ∃ pre e rest, abc_b_open.nodes = pre ++ e :: rest ∧
        (∀ x ∈ pre, x.file_meta.is_open = false) ∧ e.file_meta.is_open = true ∧
        (abc_b_open.set_root_dir "/srv/").list =
          { abc_b_open with m_rootDir := new_root "/srv/",
                            nodes := pre.map (rerooted (new_root "/srv/")) ++ e :: rest } :=
  set_root_dir_refusal abc_b_open "/srv/" (by decide)

/-- C13 as stated fails: the three files under the root dl with the handle of
B open, re-rooted at "/srv/". set_root_dir throws, but m_rootDir is "/srv"
afterwards, not "dl", and the file of A, before B in the list, has the new
path "/srv/A". -/
theorem set_root_dir_open_handle_changes_root :
    (∃ e ∈ abc_b_open.nodes, e.file_meta.is_open = true) ∧
    (abc_b_open.set_root_dir "/srv/").result =
      .error (.internal_error "EntryList::set_root_dir(...) found an already opened file.") ∧
    abc_b_open.m_rootDir = "dl" ∧
    (abc_b_open.set_root_dir "/srv/").list.m_rootDir = "/srv" ∧
    abc_b_open.nodes.map (fun e => e.file_meta.path) = ["", "", ""] ∧
    (abc_b_open.set_root_dir "/srv/").list.nodes.map (fun e => e.file_meta.path) =
      ["/srv/A", "", ""] := by
  decide

/-! ## `free_diskspace` -/

theorem free_diskspace_loop_spec (stat : String → Option Nat) (links : List String) :
    ∀ free : Nat,
      free_diskspace_loop stat links free ≤ free ∧
      (∀ a ∈ links.filterMap (fun path => (stat path).map (fun avail => avail % 2 ^ 64)),
        free_diskspace_loop stat links free ≤ a) ∧
      (free_diskspace_loop stat links free = free ∨
        free_diskspace_loop stat links free ∈
          links.filterMap (fun path => (stat path).map (fun avail => avail % 2 ^ 64))) := by
  induction links with
  | nil => intro free; simp [free_diskspace_loop]
  | cons path rest ih =>
    intro free
    cases h : stat path with
    | none =>
      obtain ⟨h1, h2, h3⟩ := ih free
      simp only [free_diskspace_loop, h, List.filterMap_cons, Option.map_none']
      exact ⟨h1, h2, h3⟩
    | some avail =>
      obtain ⟨h1, h2, h3⟩ := ih (min free (avail % 2 ^ 64))
      simp only [free_diskspace_loop, h, List.filterMap_cons, Option.map_some',
        List.mem_cons, forall_eq_or_imp]
      refine ⟨by omega, ⟨by omega, h2⟩, ?_⟩
      rcases h3 with h3 | h3
      · by_cases hle : free ≤ avail % 2 ^ 64
        · left; omega
        · right; left; omega
      · right; right; exact h3

/-- C14, amended. free_diskspace returns 0 when no recorded mount root can be
statted (also when none is recorded), and returns the least byte count of the
roots that can be statted when that least count is below the largest uint64_t
value. -/
theorem free_diskspace_min (stat : String → Option Nat) (l : EntryList) :
    (statted stat l = [] → l.free_diskspace stat = 0) ∧
    (∀ m ∈ statted stat l, (∀ a ∈ statted stat l, m ≤ a) → m < uint64_max →
      l.free_diskspace stat = m) := by
  obtain ⟨h1, h2, h3⟩ := free_diskspace_loop_spec stat l.m_indirectLinks uint64_max
  constructor
  · intro hnone
    unfold statted at hnone
    rw [hnone] at h3
    simp only [List.not_mem_nil, or_false] at h3
    simp [EntryList.free_diskspace, h3]
  · intro m hm hmin hlt
    have hle := h2 m hm
    have hne : free_diskspace_loop stat l.m_indirectLinks uint64_max ≠ uint64_max := by omega
    rcases h3 with h3 | h3
    · exact absurd h3 hne
    · have := hmin _ h3
      simp only [EntryList.free_diskspace, hne, ne_eq, not_false_eq_true, if_true]
      omega

/-- Witness of C14: two roots can be statted, with 500 and 200 bytes, one
cannot. -/
theorem free_diskspace_min_witness :
    ({ m_indirectLinks := ["dl", "dl/a", "dl/b"] } : EntryList).free_diskspace
      (fun p => if p = "dl" then some 500 else if p = "dl/a" then none else some 200) = 200 :=
  (free_diskspace_min
    (fun p => if p = "dl" then some 500 else if p = "dl/a" then none else some 200)
    { m_indirectLinks := ["dl", "dl/a", "dl/b"] }).2 200 (by decide) (by decide) (by decide)

/-- C14 as stated fails when the least count is the largest uint64_t value: one
recorded root that can be statted and reports 2^64 - 1 bytes gives 0, not the
minimum 2^64 - 1. -/
theorem free_diskspace_max_reads_zero :
    statted (fun _ => some (2 ^ 64 - 1)) { m_indirectLinks := ["dl"] } = [2 ^ 64 - 1] ∧
    ({ m_indirectLinks := ["dl"] } : EntryList).free_diskspace (fun _ => some (2 ^ 64 - 1)) = 0 ∧
    ({ m_indirectLinks := ["dl"] } : EntryList).free_diskspace (fun _ => some (2 ^ 64 - 1)) ≠
      2 ^ 64 - 1 := by
  decide

/-! ## `make_directory` -/

theorem dir_paths_drop (rest : List String) :
    ∀ (root : String) (j : Nat),
      (dir_paths root rest).drop j = dir_paths (extend root (rest.take j)) (rest.drop j) := by
  induction rest with
  | nil => intro root j; simp [dir_paths, extend]
  | cons c rest ih =>
    intro root j
    cases j with
    | zero => simp [extend]
    | succ j => simp [dir_paths, extend, ih]

theorem dir_paths_length (rest : List String) :
    ∀ root : String, (dir_paths root rest).length = rest.length := by
  induction rest with
  | nil => intro root; rfl
  | cons c rest ih => intro root; simp [dir_paths, ih]

theorem make_directory_loop_skip (env : Env) (rest : List String) :
    ∀ (i k : Nat) (path : String) (links : List String) (log : List Effect), i ≤ k →
      make_directory_loop env rest i k path links log =
        make_directory_loop env (rest.drop (k - i)) k k (extend path (rest.take (k - i)))
          links log := by
  induction rest with
  | nil => intro i k path links log _; simp [make_directory_loop]
  | cons c rest ih =>
    intro i k path links log hik
    by_cases h : i = k
    · subst h; simp [extend]
    · have hlt : i < k := by omega
      have hsub : k - i = (k - (i + 1)) + 1 := by omega
      rw [make_directory_loop]
      simp only [ne_eq, h, not_false_eq_true, if_true]
      rw [ih (i + 1) k _ links log (by omega), hsub]
      simp [extend]

theorem make_directory_loop_active (env : Env) (rest : List String) :
    ∀ (i : Nat) (path : String) (links : List String) (log : List Effect),
      ∃ fx, (make_directory_loop env rest i i path links log).2.2 = log ++ fx ∧
        (∀ a ∈ fx, a.is_dir_call) ∧
        probes fx <+: dir_paths path rest ∧
        mkdirs fx <+: (dir_paths path rest).dropLast ∧
        (mkdir_passes env (dir_paths path rest).dropLast →
          (make_directory_loop env rest i i path links log).1 = .ok () ∧
          probes fx = dir_paths path rest ∧ mkdirs fx = (dir_paths path rest).dropLast) ∧
        (∀ err, (make_directory_loop env rest i i path links log).1 = .error err →
          ∃ p strerror, p ∈ (dir_paths path rest).dropLast ∧ env.mkdir p = .failed strerror ∧
            err = mkdir_error p strerror ∧ (mkdirs fx).getLast? = some p) ∧
        ((make_directory_loop env rest i i path links log).1 = .ok () →
          mkdir_passes env (dir_paths path rest).dropLast) := by
  induction rest with
  | nil =>
    intro i path links log
    exact ⟨[], by simp [make_directory_loop], by simp, by simp [probes],
      by simp [mkdirs], fun _ => ⟨rfl, rfl, rfl⟩, fun err h => by simp [make_directory_loop] at h,
      fun _ p hp => by simp [dir_paths] at hp⟩
  | cons c rest ih =>
    intro i path links log
    cases rest with
    | nil =>
      refine ⟨[.update_link (path ++ ("/" ++ c))], by simp [make_directory_loop], ?_, ?_, ?_,
        ?_, ?_, fun _ p hp => by simp [dir_paths] at hp⟩
      · intro a ha
        simp only [List.mem_singleton] at ha
        subst ha; trivial
      · simp [probes, dir_paths]
      · simp [mkdirs, dir_paths]
      · intro _
        simp [make_directory_loop, probes, mkdirs, dir_paths]
      · intro err h
        simp [make_directory_loop] at h
    | cons c' rest' =>
      have hdl : (dir_paths path (c :: c' :: rest')).dropLast =
          (path ++ ("/" ++ c)) :: (dir_paths (path ++ ("/" ++ c)) (c' :: rest')).dropLast := by
        simp [dir_paths]
      have hdp : dir_paths path (c :: c' :: rest') =
          (path ++ ("/" ++ c)) :: dir_paths (path ++ ("/" ++ c)) (c' :: rest') := rfl
      rw [hdl, hdp]
      cases hm : env.mkdir (path ++ ("/" ++ c)) with
      | failed strerror =>
        refine ⟨[.update_link (path ++ ("/" ++ c)), .mkdir (path ++ ("/" ++ c))],
          by simp [make_directory_loop, hm], ?_, ?_, ?_, ?_, ?_,
          fun h => by simp [make_directory_loop, hm] at h⟩
        · intro a ha
          simp only [List.mem_cons, List.mem_singleton, List.not_mem_nil, or_false] at ha
          rcases ha with rfl | rfl <;> trivial
        · simp [probes]
        · simp [mkdirs]
        · intro hpass
          exact absurd hm (hpass _ (List.mem_cons_self _ _) strerror)
        · intro err h
          refine ⟨_, strerror, List.mem_cons_self _ _, hm, ?_, by simp [mkdirs]⟩
          simp only [make_directory_loop, ne_eq, not_true_eq_false, if_false, hm,
            List.isEmpty_cons, Bool.false_eq_true, Except.error.injEq] at h
          exact h.symm
      | ok =>
        obtain ⟨fx, hlog, hcalls, hpr, hmk, hpass, herr, hok⟩ :=
          ih (i + 1) (path ++ ("/" ++ c))
            (if env.update_link (path ++ ("/" ++ c)) && env.is_link (path ++ ("/" ++ c)) &&
                !links.contains (path ++ ("/" ++ c)) then links ++ [path ++ ("/" ++ c)]
              else links)
            (log ++ [.update_link (path ++ ("/" ++ c)), .mkdir (path ++ ("/" ++ c))])
        have hstep : make_directory_loop env (c :: c' :: rest') i i path links log =
            make_directory_loop env (c' :: rest') (i + 1) (i + 1) (path ++ ("/" ++ c))
              (if env.update_link (path ++ ("/" ++ c)) && env.is_link (path ++ ("/" ++ c)) &&
                  !links.contains (path ++ ("/" ++ c)) then links ++ [path ++ ("/" ++ c)]
                else links)
              (log ++ [.update_link (path ++ ("/" ++ c)), .mkdir (path ++ ("/" ++ c))]) := by
          rw [make_directory_loop]
          simp [hm]
        rw [hstep]
        refine ⟨[.update_link (path ++ ("/" ++ c)), .mkdir (path ++ ("/" ++ c))] ++ fx,
          by rw [hlog]; simp, ?_, ?_, ?_, ?_, ?_, ?_⟩
        · intro a ha
          simp only [List.cons_append, List.nil_append, List.mem_cons] at ha
          rcases ha with rfl | rfl | ha
          · trivial
          · trivial
          · exact hcalls a ha
        · simpa [probes] using hpr
        · simpa [mkdirs] using hmk
        · intro hp
          obtain ⟨h1, h2, h3⟩ := hpass (fun p hp' => hp p (List.mem_cons_of_mem _ hp'))
          refine ⟨h1, ?_, ?_⟩
          · simpa [probes] using h2
          · simpa [mkdirs] using h3
        · intro err h
          obtain ⟨p, strerror, hmem, hfail, herr', hlast⟩ := herr err h
          refine ⟨p, strerror, List.mem_cons_of_mem _ hmem, hfail, herr', ?_⟩
          have : mkdirs ([.update_link (path ++ ("/" ++ c)), .mkdir (path ++ ("/" ++ c))] ++ fx)
              = (path ++ ("/" ++ c)) :: mkdirs fx := by simp [mkdirs]
          rw [this, List.getLast?_cons, hlast]
          rfl
        · intro h p hp strerror
          rcases List.mem_cons.1 hp with rfl | hp'
          · rw [hm]; simp
          · exact hok h p hp' strerror
      | eexist =>
        obtain ⟨fx, hlog, hcalls, hpr, hmk, hpass, herr, hok⟩ :=
          ih (i + 1) (path ++ ("/" ++ c))
            (if env.update_link (path ++ ("/" ++ c)) && env.is_link (path ++ ("/" ++ c)) &&
                !links.contains (path ++ ("/" ++ c)) then links ++ [path ++ ("/" ++ c)]
              else links)
            (log ++ [.update_link (path ++ ("/" ++ c)), .mkdir (path ++ ("/" ++ c))])
        have hstep : make_directory_loop env (c :: c' :: rest') i i path links log =
            make_directory_loop env (c' :: rest') (i + 1) (i + 1) (path ++ ("/" ++ c))
              (if env.update_link (path ++ ("/" ++ c)) && env.is_link (path ++ ("/" ++ c)) &&
                  !links.contains (path ++ ("/" ++ c)) then links ++ [path ++ ("/" ++ c)]
                else links)
              (log ++ [.update_link (path ++ ("/" ++ c)), .mkdir (path ++ ("/" ++ c))]) := by
          rw [make_directory_loop]
          simp [hm]
        rw [hstep]
        refine ⟨[.update_link (path ++ ("/" ++ c)), .mkdir (path ++ ("/" ++ c))] ++ fx,
          by rw [hlog]; simp, ?_, ?_, ?_, ?_, ?_, ?_⟩
        · intro a ha
          simp only [List.cons_append, List.nil_append, List.mem_cons] at ha
          rcases ha with rfl | rfl | ha
          · trivial
          · trivial
          · exact hcalls a ha
        · simpa [probes] using hpr
        · simpa [mkdirs] using hmk
        · intro hp
          obtain ⟨h1, h2, h3⟩ := hpass (fun p hp' => hp p (List.mem_cons_of_mem _ hp'))
          refine ⟨h1, ?_, ?_⟩
          · simpa [probes] using h2
          · simpa [mkdirs] using h3
        · intro err h
          obtain ⟨p, strerror, hmem, hfail, herr', hlast⟩ := herr err h
          refine ⟨p, strerror, List.mem_cons_of_mem _ hmem, hfail, herr', ?_⟩
          have : mkdirs ([.update_link (path ++ ("/" ++ c)), .mkdir (path ++ ("/" ++ c))] ++ fx)
              = (path ++ ("/" ++ c)) :: mkdirs fx := by simp [mkdirs]
          rw [this, List.getLast?_cons, hlast]
          rfl
        · intro h p hp strerror
          rcases List.mem_cons.1 hp with rfl | hp'
          · rw [hm]; simp
          · exact hok h p hp' strerror

theorem make_directory_spec (env : Env) (l : EntryList) (path : Path) (k : Nat) :
    (∀ a ∈ (l.make_directory env path k).effects, a.is_dir_call) ∧
    probes (l.make_directory env path k).effects <+: (dir_paths l.m_rootDir path).drop k ∧
    mkdirs (l.make_directory env path k).effects <+:
      ((dir_paths l.m_rootDir path).drop k).dropLast ∧
    (mkdir_passes env ((dir_paths l.m_rootDir path).drop k).dropLast →
      (l.make_directory env path k).result = .ok () ∧
      probes (l.make_directory env path k).effects = (dir_paths l.m_rootDir path).drop k ∧
      mkdirs (l.make_directory env path k).effects =
        ((dir_paths l.m_rootDir path).drop k).dropLast) ∧
    (∀ err, (l.make_directory env path k).result = .error err →
      ∃ p strerror, p ∈ ((dir_paths l.m_rootDir path).drop k).dropLast ∧
        env.mkdir p = .failed strerror ∧ err = mkdir_error p strerror ∧
        (mkdirs (l.make_directory env path k).effects).getLast? = some p) ∧
    ((l.make_directory env path k).result = .ok () →
      mkdir_passes env ((dir_paths l.m_rootDir path).drop k).dropLast) ∧
    (l.make_directory env path k).list.nodes = l.nodes ∧
    (l.make_directory env path k).list.m_isOpen = l.m_isOpen ∧
    (l.make_directory env path k).list.m_rootDir = l.m_rootDir := by
  have hskip := make_directory_loop_skip env path 0 k l.m_rootDir l.m_indirectLinks []
    (Nat.zero_le k)
  obtain ⟨fx, hlog, hcalls, hpr, hmk, hpass, herr, hok⟩ :=
    make_directory_loop_active env (path.drop k) k (extend l.m_rootDir (path.take k))
      l.m_indirectLinks []
  simp only [Nat.sub_zero] at hskip
  rw [← hskip] at hlog hpass herr hok
  rw [← dir_paths_drop] at hpr hmk hpass herr hok
  simp only [List.nil_append] at hlog
  have hres : (l.make_directory env path k).result =
      (make_directory_loop env path 0 k l.m_rootDir l.m_indirectLinks []).1 := rfl
  have hfx : (l.make_directory env path k).effects = fx := hlog
  rw [hres, hfx]
  exact ⟨hcalls, hpr, hmk, hpass, herr, hok, rfl, rfl, rfl⟩

theorem first_mismatch_spec (path : Path) :
    ∀ lastPath : Path,
      first_mismatch path lastPath ≤ path.length ∧
      path.take (first_mismatch path lastPath) = lastPath.take (first_mismatch path lastPath) ∧
      (∀ a b, path[first_mismatch path lastPath]? = some a →
        lastPath[first_mismatch path lastPath]? = some b → a ≠ b) := by
  induction path with
  | nil => intro lastPath; simp [first_mismatch]
  | cons a path ih =>
    intro lastPath
    cases lastPath with
    | nil => simp [first_mismatch]
    | cons b lastPath =>
      by_cases h : a = b
      · obtain ⟨h1, h2, h3⟩ := ih lastPath
        subst h
        simp only [first_mismatch, if_true, List.length_cons, List.take_succ_cons,
          List.getElem?_cons_succ]
        exact ⟨by omega, by rw [h2], h3⟩
      · simp only [first_mismatch, h, if_false, List.take_zero, List.getElem?_cons_zero,
          Option.some.injEq]
        refine ⟨by omega, trivial, ?_⟩
        rintro a' b' rfl rfl
        exact h

theorem open_file_dir_calls (env : Env) (l : EntryList) (itr : Nat) (node : EntryListNode)
    (lastPath : Path) :
    probes (l.open_file env itr node lastPath).effects =
        probes (l.make_directory env node.path (first_mismatch node.path lastPath)).effects ∧
      mkdirs (l.open_file env itr node lastPath).effects =
        mkdirs (l.make_directory env node.path (first_mismatch node.path lastPath)).effects := by
  unfold EntryList.open_file
  simp only
  split
  · exact ⟨rfl, rfl⟩
  · split_ifs <;> simp [probes, mkdirs, List.filterMap_append]

/-- C19. make_directory for a path and the index k where it first differs
from the previous path (the first k components are equal): with element i of
dir_paths the directory string of component i, the probes are an initial
part of the elements from k on and the mkdir calls an initial part of the
elements k to n-2, in increasing order (never the last component); when no
mkdir fails with an error other than EEXIST both lists are complete and the
call returns; a mkdir that fails otherwise ends the call with the storage
error for that directory. open_file makes exactly these directory calls. -/
theorem make_directory_calls (env : Env) (l : EntryList) (path : Path) (k : Nat) :
    probes (l.make_directory env path k).effects <+: (dir_paths l.m_rootDir path).drop k ∧
    mkdirs (l.make_directory env path k).effects <+:
      ((dir_paths l.m_rootDir path).drop k).dropLast ∧
    (mkdir_passes env ((dir_paths l.m_rootDir path).drop k).dropLast ↔
      (l.make_directory env path k).result = .ok ()) ∧
    ((l.make_directory env path k).result = .ok () →
      probes (l.make_directory env path k).effects = (dir_paths l.m_rootDir path).drop k ∧
      mkdirs (l.make_directory env path k).effects =
        ((dir_paths l.m_rootDir path).drop k).dropLast) ∧
    (∀ err, (l.make_directory env path k).result = .error err →
      ∃ p strerror, p ∈ ((dir_paths l.m_rootDir path).drop k).dropLast ∧
        env.mkdir p = .failed strerror ∧ err = mkdir_error p strerror ∧
        (mkdirs (l.make_directory env path k).effects).getLast? = some p) ∧
    (∀ (itr : Nat) (node : EntryListNode) (lastPath : Path),
      node.path.take (first_mismatch node.path lastPath) =
        lastPath.take (first_mismatch node.path lastPath) ∧
      (∀ a b, node.path[first_mismatch node.path lastPath]? = some a →
        lastPath[first_mismatch node.path lastPath]? = some b → a ≠ b) ∧
      probes (l.open_file env itr node lastPath).effects =
        probes (l.make_directory env node.path (first_mismatch node.path lastPath)).effects ∧
      mkdirs (l.open_file env itr node lastPath).effects =
        mkdirs (l.make_directory env node.path (first_mismatch node.path lastPath)).effects) := by
  obtain ⟨_, hpr, hmk, hpass, herr, hok, _⟩ := make_directory_spec env l path k
  refine ⟨hpr, hmk, ⟨fun h => (hpass h).1, hok⟩, fun h => (hpass (hok h)).2, herr, ?_⟩
  intro itr node lastPath
  obtain ⟨_, h2, h3⟩ := first_mismatch_spec node.path lastPath
  obtain ⟨h4, h5⟩ := open_file_dir_calls env l itr node lastPath
  exact ⟨h2, h3, h4, h5⟩

/-- Witness of C19: the file a/b/c/f opened after a/x under the root dl, every
directory already there: the probes are dl/a/b, dl/a/b/c and dl/a/b/c/f, the
mkdir calls dl/a/b and dl/a/b/c. -/
theorem make_directory_calls_witness :
    probes (abc.make_directory { env_ok with mkdir := fun _ => .eexist } ["a", "b", "c", "f"]
        (first_mismatch ["a", "b", "c", "f"] ["a", "x"])).effects =
      ["dl/a/b", "dl/a/b/c", "dl/a/b/c/f"] ∧
    mkdirs (abc.make_directory { env_ok with mkdir := fun _ => .eexist } ["a", "b", "c", "f"]
        (first_mismatch ["a", "b", "c", "f"] ["a", "x"])).effects =
      ["dl/a/b", "dl/a/b/c"] :=
  (make_directory_calls { env_ok with mkdir := fun _ => .eexist } abc ["a", "b", "c", "f"]
    (first_mismatch ["a", "b", "c", "f"] ["a", "x"])).2.2.2.1 (by decide)

/-! ## `open_file` on a placeholder entry -/

theorem dir_calls_only (fx : List Effect) (h : ∀ a ∈ fx, a.is_dir_call) :
    prepares fx = [] ∧ inserted fx = [] ∧ erased fx = [] := by
  induction fx with
  | nil => exact ⟨rfl, rfl, rfl⟩
  | cons a rest ih =>
    obtain ⟨h1, h2, h3⟩ := ih (fun b hb => h b (List.mem_cons_of_mem _ hb))
    have ha := h a (List.mem_cons_self _ _)
    cases a <;> simp_all [Effect.is_dir_call, prepares, inserted, erased]

/-- C15, amended. open_file for an entry whose last path component is empty:
when make_directory returns (no directory of the path fails to be made), the
result is true exactly when the size is 0 and false otherwise; when
make_directory throws, open_file throws the same error; in every case no
prepare call is made and no handle of the list changes. -/
theorem open_file_placeholder (env : Env) (l : EntryList) (itr : Nat) (node : EntryListNode)
    (lastPath : Path) (hlast : node.path.getLast? = some "") :
    prepares (l.open_file env itr node lastPath).effects = [] ∧
    (l.open_file env itr node lastPath).list.nodes = l.nodes ∧
    ((l.make_directory env node.path (first_mismatch node.path lastPath)).result = .ok () →
      ((l.open_file env itr node lastPath).result = .ok true ↔ node.size = 0) ∧
      ((l.open_file env itr node lastPath).result = .ok false ↔ node.size ≠ 0)) ∧
    (∀ err, (l.make_directory env node.path (first_mismatch node.path lastPath)).result =
        .error err → (l.open_file env itr node lastPath).result = .error err) := by
  obtain ⟨hcalls, _, _, _, _, _, hnodes, _, _⟩ :=
    make_directory_spec env l node.path (first_mismatch node.path lastPath)
  have hprep := (dir_calls_only _ hcalls).1
  have hph : node.path.getLast?.getD "" = "" := by rw [hlast]; rfl
  cases hres : (l.make_directory env node.path (first_mismatch node.path lastPath)).result with
  | error err =>
    have hof : l.open_file env itr node lastPath =
        ⟨.error err, (l.make_directory env node.path (first_mismatch node.path lastPath)).list,
          (l.make_directory env node.path (first_mismatch node.path lastPath)).effects⟩ := by
      simp [EntryList.open_file, hres]
    rw [hof]
    refine ⟨hprep, hnodes, fun h => by simp at h, fun err' h => ?_⟩
    simp only [Except.error.injEq] at h
    rw [h]
  | ok u =>
    have hof : l.open_file env itr node lastPath =
        ⟨.ok (decide (node.size = 0)),
          (l.make_directory env node.path (first_mismatch node.path lastPath)).list,
          (l.make_directory env node.path (first_mismatch node.path lastPath)).effects⟩ := by
      simp [EntryList.open_file, hres, hph]
    rw [hof]
    refine ⟨hprep, hnodes, fun _ => ?_, fun err' h => by simp at h⟩
    by_cases hz : node.size = 0 <;> simp [hz]

/-- Witness of C15: the placeholder sub/ with size 0 after the file C. -/
theorem open_file_placeholder_witness :
    ((with_placeholder 0).open_file env_ok 3 (placeholder 0) ["C"]).result = .ok true ∧
    prepares ((with_placeholder 0).open_file env_ok 3 (placeholder 0) ["C"]).effects = [] :=
  ⟨((open_file_placeholder env_ok (with_placeholder 0) 3 (placeholder 0) ["C"] rfl).2.2.1
      (by decide)).1.2 rfl,
    (open_file_placeholder env_ok (with_placeholder 0) 3 (placeholder 0) ["C"] rfl).1⟩

/-- C15 as stated fails when the directory of the placeholder cannot be made:
the entry sub/ has size 0, but mkdir of dl/sub fails and open_file throws the
storage error instead of returning true. -/
theorem open_file_placeholder_mkdir_fails :
    (placeholder 0).path.getLast? = some "" ∧ (placeholder 0).size = 0 ∧
    ((with_placeholder 0).open_file env_no_mkdir 3 (placeholder 0) ["C"]).result =
      .error (.storage_error "Could not create directory 'dl/sub': Permission denied") ∧
    ((with_placeholder 0).open_file env_no_mkdir 3 (placeholder 0) ["C"]).result ≠ .ok true := by
  decide

/-! ## `open`: the slot calls -/

theorem inserted_append (a b : List Effect) : inserted (a ++ b) = inserted a ++ inserted b := by
  simp [inserted, List.filterMap_append]

theorem erased_append (a b : List Effect) : erased (a ++ b) = erased a ++ erased b := by
  simp [erased, List.filterMap_append]

theorem open_file_slots (env : Env) (l : EntryList) (itr : Nat) (node : EntryListNode)
    (lastPath : Path) :
    inserted (l.open_file env itr node lastPath).effects = [] ∧
    erased (l.open_file env itr node lastPath).effects = [] ∧
    (l.open_file env itr node lastPath).list.m_isOpen = l.m_isOpen ∧
    (l.open_file env itr node lastPath).list.m_rootDir = l.m_rootDir ∧
    (∀ err, (l.open_file env itr node lastPath).result = .error err →
      ∃ p strerror, err = mkdir_error p strerror) := by
  obtain ⟨hcalls, _, _, _, herr, _, _, hopen, hroot⟩ :=
    make_directory_spec env l node.path (first_mismatch node.path lastPath)
  obtain ⟨_, hins, hera⟩ := dir_calls_only _ hcalls
  unfold EntryList.open_file
  simp only
  cases hres : (l.make_directory env node.path (first_mismatch node.path lastPath)).result with
  | error err =>
    obtain ⟨p, strerror, _, _, he, _⟩ := herr err hres
    simp only
    refine ⟨hins, hera, hopen, hroot, fun err' h => ?_⟩
    simp only [Except.error.injEq] at h
    exact ⟨p, strerror, by rw [← h, he]⟩
  | ok u =>
    simp only
    split_ifs
    · exact ⟨hins, hera, hopen, hroot, fun err' h => by simp at h⟩
    · exact ⟨by rw [inserted_append, hins]; rfl, by rw [erased_append, hera]; rfl, hopen, hroot,
        fun err' h => by simp at h⟩
    · exact ⟨by rw [inserted_append, hins]; rfl, by rw [erased_append, hera]; rfl, hopen, hroot,
        fun err' h => by simp at h⟩
    · exact ⟨by rw [inserted_append, hins]; rfl, by rw [erased_append, hera]; rfl, hopen, hroot,
        fun err' h => by simp at h⟩

theorem open_loop_spec (env : Env) (todo : List EntryListNode) :
    ∀ (itr : Nat) (lastPath : Path) (l : EntryList) (log : List Effect),
      itr ≤ (open_loop env todo itr lastPath l log).2.1 ∧
      (open_loop env todo itr lastPath l log).2.2.1.m_isOpen = l.m_isOpen ∧
      erased (open_loop env todo itr lastPath l log).2.2.2 = erased log ∧
      (∀ what, (open_loop env todo itr lastPath l log).1 ≠ .error (.client_error what)) ∧
      ((∃ what, (open_loop env todo itr lastPath l log).1 = .error (.internal_error what)) ∨
        inserted (open_loop env todo itr lastPath l log).2.2.2 =
          inserted log ++ List.range' itr ((open_loop env todo itr lastPath l log).2.1 - itr)) := by
  induction todo with
  | nil =>
    intro itr lastPath l log
    simp [open_loop]
  | cons entry todo ih =>
    intro itr lastPath l log
    rw [open_loop]
    by_cases h1 : entry.file_meta.is_open = true
    · rw [if_pos h1]
      exact ⟨by simp, rfl, rfl, by simp, Or.inl ⟨_, rfl⟩⟩
    rw [if_neg h1]
    by_cases h2 : entry.path.isEmpty = true
    · rw [if_pos h2]
      refine ⟨by simp, rfl, by simp [erased, List.filterMap_append], by simp, Or.inr ?_⟩
      simp [inserted, List.filterMap_append]
    rw [if_neg h2]
    obtain ⟨hins, hera, hopen, _, herr⟩ := open_file_slots env l itr entry lastPath
    have hlog : inserted (log ++ .slot_insert itr :: (l.open_file env itr entry lastPath).effects)
        = inserted log ++ [itr] := by
      rw [inserted_append]
      show inserted log ++ itr :: inserted (l.open_file env itr entry lastPath).effects = _
      rw [hins]
    have hlog' : erased (log ++ .slot_insert itr :: (l.open_file env itr entry lastPath).effects)
        = erased log := by
      rw [erased_append]
      show erased log ++ erased (l.open_file env itr entry lastPath).effects = _
      rw [hera, List.append_nil]
    simp only
    cases hres : (l.open_file env itr entry lastPath).result with
    | error err =>
      obtain ⟨p, strerror, he⟩ := herr err hres
      simp only
      refine ⟨by simp, hopen, hlog', ?_, Or.inr ?_⟩
      · intro what h
        simp only [Except.error.injEq] at h
        rw [he] at h
        simp [mkdir_error] at h
      · rw [hlog]; simp
    | ok b =>
      cases b with
      | false =>
        simp only
        refine ⟨by simp, hopen, hlog', by simp, Or.inr ?_⟩
        rw [hlog]; simp
      | true =>
        simp only
        obtain ⟨i1, i2, i3, i4, i5⟩ := ih (itr + 1) entry.path
          (l.open_file env itr entry lastPath).list
          (log ++ .slot_insert itr :: (l.open_file env itr entry lastPath).effects)
        refine ⟨by omega, by rw [i2, hopen], by rw [i3, hlog'], i4, ?_⟩
        rcases i5 with i5 | i5
        · exact Or.inl i5
        · right
          rw [i5, hlog]
          have hsub : (open_loop env todo (itr + 1) entry.path
              (l.open_file env itr entry lastPath).list
              (log ++ .slot_insert itr :: (l.open_file env itr entry lastPath).effects)).2.1 - itr
              = ((open_loop env todo (itr + 1) entry.path
              (l.open_file env itr entry lastPath).list
              (log ++ .slot_insert itr :: (l.open_file env itr entry lastPath).effects)).2.1
                - (itr + 1)) + 1 := by omega
          rw [hsub, List.range'_succ]
          simp

theorem inserted_erases (xs : List Nat) : inserted (xs.map Effect.slot_erase) = [] := by
  induction xs with
  | nil => rfl
  | cons x xs ih => simp [inserted]

theorem erased_erases (xs : List Nat) : erased (xs.map Effect.slot_erase) = xs := by
  induction xs with
  | nil => rfl
  | cons x xs ih =>
    simp only [erased, List.map_cons, List.filterMap_cons] at ih ⊢
    rw [ih]

/-- C17. When open throws a storage error, the calls it made are: first calls
among which the insert slot was called for the entries 0 to k-1, once each and
in order, and the erase slot not at all; then the erase slot for the entries 0
to k-1, once each and in order. So the erase slot is called exactly once for
every entry handed to the insert slot during the call and for no other entry.
The open flag is what it was before the call (a closed list stays closed). -/
theorem open_failure_rolls_back (env : Env) (l : EntryList) (what : String)
    (hfail : (l.open env).result = .error (.storage_error what)) :
    ∃ k pre, (l.open env).effects = pre ++ (List.range k).map Effect.slot_erase ∧
      inserted pre = List.range k ∧ erased pre = [] ∧
      inserted (l.open env).effects = List.range k ∧
      erased (l.open env).effects = List.range k ∧
      (l.open env).list.m_isOpen = l.m_isOpen := by
  suffices hmain : ∃ k pre, (l.open env).effects = pre ++ (List.range k).map Effect.slot_erase ∧
      inserted pre = List.range k ∧ erased pre = [] ∧
      (l.open env).list.m_isOpen = l.m_isOpen by
    obtain ⟨k, pre, h1, h2, h3, h4⟩ := hmain
    refine ⟨k, pre, h1, h2, h3, ?_, ?_, h4⟩
    · rw [h1, inserted_append, h2, inserted_erases, List.append_nil]
    · rw [h1, erased_append, h3, erased_erases, List.nil_append]
  have hspec := open_loop_spec env l.nodes 0 []
    { l with m_indirectLinks := l.m_indirectLinks ++ [l.m_rootDir] } [.mkdir l.m_rootDir]
  unfold EntryList.open at hfail ⊢
  by_cases hroot : l.m_rootDir.isEmpty = true
  · rw [if_pos hroot] at hfail
    simp at hfail
  rw [if_neg hroot] at hfail ⊢
  simp only at hfail ⊢
  cases hm : env.mkdir l.m_rootDir with
  | failed s =>
    simp only [hm] at hfail ⊢
    exact ⟨0, [.mkdir l.m_rootDir], by simp, rfl, rfl, rfl⟩
  | ok =>
    simp only [hm] at hfail ⊢
    generalize open_loop env l.nodes 0 []
      { l with m_indirectLinks := l.m_indirectLinks ++ [l.m_rootDir] } [.mkdir l.m_rootDir] = r
      at hspec hfail ⊢
    obtain ⟨r1, itr, l2, log⟩ := r
    obtain ⟨_, hopen, hera, _, hins⟩ := hspec
    cases r1 with
    | ok u => simp at hfail
    | error err =>
      cases err with
      | internal_error w => simp at hfail
      | client_error w => simp at hfail
      | storage_error w =>
        simp only at hopen hera hins ⊢
        rcases hins with ⟨w', hw'⟩ | hins
        · simp at hw'
        · refine ⟨itr, log, rfl, ?_, hera, ?_⟩
          · rw [hins, List.range_eq_range']
            simp [inserted]
          · rw [(erase_upto_fields itr l2).1, hopen]
  | eexist =>
    simp only [hm] at hfail ⊢
    generalize open_loop env l.nodes 0 []
      { l with m_indirectLinks := l.m_indirectLinks ++ [l.m_rootDir] } [.mkdir l.m_rootDir] = r
      at hspec hfail ⊢
    obtain ⟨r1, itr, l2, log⟩ := r
    obtain ⟨_, hopen, hera, _, hins⟩ := hspec
    cases r1 with
    | ok u => simp at hfail
    | error err =>
      cases err with
      | internal_error w => simp at hfail
      | client_error w => simp at hfail
      | storage_error w =>
        simp only at hopen hera hins ⊢
        rcases hins with ⟨w', hw'⟩ | hins
        · simp at hw'
        · refine ⟨itr, log, rfl, ?_, hera, ?_⟩
          · rw [hins, List.range_eq_range']
            simp [inserted]
          · rw [(erase_upto_fields itr l2).1, hopen]

/-- Witness of C17: the three files when the file of B cannot be opened. -/
theorem open_failure_rolls_back_witness :
    ∃ k pre, (abc.open env_first_only).effects = pre ++ (List.range k).map Effect.slot_erase ∧
      inserted pre = List.range k ∧ erased pre = [] ∧
      inserted (abc.open env_first_only).effects = List.range k ∧
      erased (abc.open env_first_only).effects = List.range k ∧
      (abc.open env_first_only).list.m_isOpen = abc.m_isOpen :=
  open_failure_rolls_back env_first_only abc
    "Could not open file \"dl/B\": Permission denied" (by decide)

/-- C16, the code at the failing input: the three files under the root dl,
nothing recorded. A first open fails at the file of B and leaves the root in
m_indirectLinks; the list is still closed, so close changes nothing; a second
open, with every file now openable, succeeds and records the root again:
m_indirectLinks holds dl twice. -/
theorem reopen_records_root_twice :
    abc.m_indirectLinks = [] ∧ abc.m_isOpen = false ∧
    (∃ what, (abc.open env_first_only).result = .error (.storage_error what)) ∧
    ((abc.open env_first_only).list.close).list = (abc.open env_first_only).list ∧
    (((abc.open env_first_only).list.close).list.open env_ok).result = .ok () ∧
    (((abc.open env_first_only).list.close).list.open env_ok).list.m_indirectLinks =
      ["dl", "dl"] ∧
    ¬ (((abc.open env_first_only).list.close).list.open env_ok).list.m_indirectLinks.Nodup := by
  refine ⟨rfl, rfl, ⟨_, (by decide : (abc.open env_first_only).result =
    .error (.storage_error "Could not open file \"dl/B\": Permission denied"))⟩,
    by decide, by decide, by decide, by decide⟩

/-! ## `start` and the tracker request -/

/-- C18. start on an open, inactive download (the sum of the three terms
being a size_t value) returns with the download active, the chunk counts
untouched, m_lastConnectedSize 0 and the aggressive flag set exactly when
chunks_completed + transfer list size + 5 >= chunk_total, whatever the flag
was before. start on a closed or an active download throws a client error and
changes nothing, the flag included. -/
theorem start_resets_endgame (d : DownloadMain) :
    (d.is_open = true → d.is_active = false →
      d.chunks_completed + d.transfer_list_size + 5 < 2 ^ 64 →
        (d.start).1 = .ok () ∧ (d.start).2.is_active = true ∧ (d.start).2.is_open = true ∧
        ((d.start).2.aggressive = true ↔
          d.chunks_completed + d.transfer_list_size + 5 ≥ d.chunk_total) ∧
        (d.start).2.chunks_completed = d.chunks_completed ∧
        (d.start).2.transfer_list_size = d.transfer_list_size ∧
        (d.start).2.chunk_total = d.chunk_total ∧ (d.start).2.m_lastConnectedSize = 0) ∧
    ((d.is_open = false ∨ d.is_active = true) →
      (∃ what, (d.start).1 = .error (.client_error what)) ∧ (d.start).2 = d) := by
  constructor
  · intro hopen hact hfit
    have hw : wrapSize (d.chunks_completed + d.transfer_list_size + 5) =
        d.chunks_completed + d.transfer_list_size + 5 := by
      unfold wrapSize; omega
    by_cases h : d.chunk_total ≤ d.chunks_completed + d.transfer_list_size + 5
    · simp [DownloadMain.start, DownloadMain.update_endgame,
        DownloadMain.receive_connect_peers, hopen, hact, hw, h]
    · simp [DownloadMain.start, DownloadMain.update_endgame,
        DownloadMain.receive_connect_peers, hopen, hact, hw, h]
  · rintro (h | h)
    · simp [DownloadMain.start, h]
    · cases ho : d.is_open <;> simp [DownloadMain.start, h, ho]

/-- Witness of C18: a stopped download in endgame whose counts fell back to 10
of 100 chunks is started again. -/
theorem start_resets_endgame_witness :
    (({ is_open := true, aggressive := true, chunks_completed := 10, chunk_total := 100 } :
        DownloadMain).start).1 = .ok () ∧
    (({ is_open := true, aggressive := true, chunks_completed := 10, chunk_total := 100 } :
        DownloadMain).start).2.aggressive = false :=
  ⟨((start_resets_endgame
      { is_open := true, aggressive := true, chunks_completed := 10, chunk_total := 100 }).1
      rfl rfl (by decide)).1, by decide⟩

/-- C20. receive_tracker_request (connection count and m_lastConnectedSize + 10
being uint32_t values) makes no tracker call and changes nothing when the
connection count is at least the minimum. Below the minimum it calls
request_next exactly when the count is less than m_lastConnectedSize + 10 or
request_current returned false (request_current is called exactly when the
count is not less), and it then stores the count in m_lastConnectedSize,
leaving the other members as they were. -/
theorem receive_tracker_request_spec (min_size : Nat) (current_accepted : Bool)
    (d : DownloadMain) (hsize : d.connection_list_size < 2 ^ 32)
    (hlast : d.m_lastConnectedSize + 10 < 2 ^ 32) :
    (d.connection_list_size ≥ min_size →
      d.receive_tracker_request min_size current_accepted = (d, [])) ∧
    (d.connection_list_size < min_size →
      (.request_next ∈ (d.receive_tracker_request min_size current_accepted).2 ↔
        (d.connection_list_size < d.m_lastConnectedSize + 10 ∨ current_accepted = false)) ∧
      (.request_current ∈ (d.receive_tracker_request min_size current_accepted).2 ↔
        ¬ d.connection_list_size < d.m_lastConnectedSize + 10) ∧
      (d.receive_tracker_request min_size current_accepted).1 =
        { d with m_lastConnectedSize := d.connection_list_size }) := by
  have h1 : d.connection_list_size % 2 ^ 32 = d.connection_list_size := Nat.mod_eq_of_lt hsize
  have h2 : (d.m_lastConnectedSize + 10) % 2 ^ 32 = d.m_lastConnectedSize + 10 :=
    Nat.mod_eq_of_lt hlast
  constructor
  · intro h
    simp [DownloadMain.receive_tracker_request, h]
  · intro h
    have hn : ¬ d.connection_list_size ≥ min_size := by omega
    simp only [DownloadMain.receive_tracker_request, if_neg hn, h1, h2]
    by_cases hgrow : d.connection_list_size < d.m_lastConnectedSize + 10
    · simp [hgrow]
    · cases current_accepted <;> simp [hgrow]

/-- Witness of C20: 12 connections, 5 at the last request, minimum 40, the
current tracker refuses: the next tracker is asked and 12 is stored. -/
theorem receive_tracker_request_spec_witness :
    (.request_next ∈ (few_peers.receive_tracker_request 40 false).2 ↔
      (few_peers.connection_list_size < few_peers.m_lastConnectedSize + 10 ∨ false = false)) ∧
    (.request_current ∈ (few_peers.receive_tracker_request 40 false).2 ↔
      ¬ few_peers.connection_list_size < few_peers.m_lastConnectedSize + 10) ∧
    (few_peers.receive_tracker_request 40 false).1 =
      { few_peers with m_lastConnectedSize := few_peers.connection_list_size } :=
  (receive_tracker_request_spec 40 false few_peers (by decide) (by decide)).2 (by decide)

/-! ## Open and active flags of a download -/

theorem call_keeps_active_open (d : DownloadMain) (c : Call)
    (h : d.is_active = true → d.is_open = true) :
    (d.call c).is_active = true → (d.call c).is_open = true := by
  rcases c with inner | ⟨cleanup, completed, in_progress⟩ | _ | _
  · simp only [DownloadMain.call, DownloadMain.open]
    by_cases ho : d.is_open = true
    · simp [ho]
    · rcases inner with err | u
      · simp only [ho, if_false]
        exact h
      · simp [ho]
  · simp only [DownloadMain.call, DownloadMain.close]
    by_cases ha : d.is_active = true
    · simpa [ha] using h ha
    · by_cases ho : d.is_open = true
      · simp [ha, ho]
      · simp [ha, ho]
  · simp only [DownloadMain.call, DownloadMain.start]
    by_cases ho : d.is_open = true
    · by_cases ha : d.is_active = true
      · simp [ho, ha]
      · simp only [ho, ha]
        simp [DownloadMain.update_endgame, DownloadMain.receive_connect_peers]
        split_ifs <;> simp [ho]
    · simp only [ho]
      simpa using h
  · simp only [DownloadMain.call, DownloadMain.stop]
    by_cases ha : d.is_active = true
    · simp [ha]
    · simp [ha]

/-- C21. A new DownloadMain is neither open nor active, and each of open,
close, start and stop, with any outcome of the calls it makes to the outside
and whether it returns or throws, leaves a download in which active implies
open when it starts from one; so the same holds after any sequence of these
calls on a new DownloadMain. -/
theorem active_implies_open (d : DownloadMain) (cs : List Call)
    (h : d.is_active = true → d.is_open = true) :
    (({} : DownloadMain).is_open = false ∧ ({} : DownloadMain).is_active = false) ∧
    (∀ inner, (d.open inner).2.is_active = true → (d.open inner).2.is_open = true) ∧
    (∀ cleanup completed in_progress,
      (d.close cleanup completed in_progress).2.is_active = true →
        (d.close cleanup completed in_progress).2.is_open = true) ∧
    ((d.start).2.is_active = true → (d.start).2.is_open = true) ∧
    (d.stop.is_active = true → d.stop.is_open = true) ∧
    ((d.calls cs).is_active = true → (d.calls cs).is_open = true) ∧
    ((({} : DownloadMain).calls cs).is_active = true →
      (({} : DownloadMain).calls cs).is_open = true) := by
  have hseq : ∀ (cs : List Call) (d : DownloadMain),
      (d.is_active = true → d.is_open = true) →
      ((d.calls cs).is_active = true → (d.calls cs).is_open = true) := by
    intro cs
    induction cs with
    | nil => intro d h; simpa [DownloadMain.calls] using h
    | cons c rest ih =>
      intro d h
      simp only [DownloadMain.calls, List.foldl_cons]
      exact ih _ (call_keeps_active_open d c h)
  refine ⟨⟨rfl, rfl⟩, fun inner => call_keeps_active_open d (.open inner) h,
    fun cleanup completed in_progress =>
      call_keeps_active_open d (.close cleanup completed in_progress) h,
    call_keeps_active_open d .start h, call_keeps_active_open d .stop h, hseq cs d h,
    hseq cs {} (by simp)⟩

/-- Witness of C21: a new download, opened and started, is active and open. -/
theorem active_implies_open_witness :
    (({} : DownloadMain).calls [.open (.ok ()), .start]).is_open = true :=
  (active_implies_open {} [.open (.ok ()), .start] (by simp)).2.2.2.2.2.2 (by decide)

/-! ## `create_chunk`: no internal error -/

/-- C22. On an entry list that tiles the byte space, for a request with offset
at least 0, length more than 0 and end inside the total, when every mapping
succeeds with the size asked for, create_chunk returns a chunk: the walk ends
and the result is none of the internal errors (no valid file, negative offset,
mc.size() == 0, mc.size() > length), nor any other error. -/
theorem create_chunk_no_internal_error (T : TotalType) (env : Env) (l : EntryList)
    (offset length : Int) (prot : Nat) (hall : env.maps_all) (hexact : env.exact)
    (hl : l.Tiled) (h0 : 0 ≤ offset) (hlen0 : 0 < length) (hlen1 : length < 2 ^ 32)
    (hend : offset + length ≤ l.m_bytesSize) :
    (∃ parts, (l.create_chunk T env offset length prot).1 = .ok (some parts)) ∧
    (∀ err ∈ walk_errors, (l.create_chunk T env offset length prot).1 ≠ .error err) ∧
    (∀ err, (l.create_chunk T env offset length prot).1 ≠ .error err) := by
  rcases create_chunk_spec T env l offset length prot hexact hl h0 hlen0 hlen1 hend with
    ⟨parts, hres, _, _⟩ | ⟨_, hfail⟩
  · refine ⟨⟨parts, hres⟩, fun err _ h => ?_, fun err h => ?_⟩
    · rw [hres] at h; simp at h
    · rw [hres] at h; simp at h
  · exact absurd hall hfail

/-- Witness of C22: the request (5, 20) on three files of 10 bytes. -/
theorem create_chunk_no_internal_error_witness :
    (∃ parts, (abc.create_chunk .off_t env_ok 5 20 prot_read).1 = .ok (some parts)) ∧
    (∀ err ∈ walk_errors, (abc.create_chunk .off_t env_ok 5 20 prot_read).1 ≠ .error err) ∧
    (∀ err, (abc.create_chunk .off_t env_ok 5 20 prot_read).1 ≠ .error err) :=
  create_chunk_no_internal_error .off_t env_ok abc 5 20 prot_read env_ok_maps_all env_ok_exact
    abc_tiled (by decide) (by decide) (by decide) (by decide)

/-! ## `Download::close` -/

/-- C24. Download::close, for every download and every outcome of the calls
that clear the members: an active download is stopped first; the guard of
DownloadMain::close never throws (the result is the outcome of the clearing
calls for an open download and a plain return for a closed one); afterwards
the download is neither active nor open; and a download that is already closed
(hence not active) is left as it was. -/
theorem download_close_spec (cleanup : Except Error Unit) (completed in_progress : Nat)
    (d : DownloadMain) :
    (d.is_active = true →
      Download.close cleanup completed in_progress d =
        (Download.stop d).close cleanup completed in_progress ∧
      (Download.stop d).is_active = false) ∧
    (Download.close cleanup completed in_progress d).1 =
      (if d.is_open then cleanup else .ok ()) ∧
    (cleanup ≠ .error (.internal_error "Tried to close an active download") →
      (Download.close cleanup completed in_progress d).1 ≠
        .error (.internal_error "Tried to close an active download")) ∧
    (Download.close cleanup completed in_progress d).2.is_active = false ∧
    (Download.close cleanup completed in_progress d).2.is_open = false ∧
    (d.is_open = false → d.is_active = false →
      (Download.close cleanup completed in_progress d).2 = d ∧
      (Download.close cleanup completed in_progress d).1 = .ok ()) := by
  cases ha : d.is_active <;> cases ho : d.is_open <;>
    simp [Download.close, Download.stop, DownloadWrapper.close, DownloadMain.close,
      DownloadMain.stop, ha, ho]

/-- Witness of C24: an open, active download is closed. -/
theorem download_close_spec_witness :
    Download.close (.ok ()) 0 0 { is_open := true, is_active := true } =
      (Download.stop { is_open := true, is_active := true }).close (.ok ()) 0 0 ∧
    (Download.stop { is_open := true, is_active := true }).is_active = false :=
  (download_close_spec (.ok ()) 0 0 { is_open := true, is_active := true }).1 rfl

/-! ## `TrackerHttp` -/

theorem close_keeps_info (t : TrackerHttp) : t.close.m_info = t.m_info := by
  unfold TrackerHttp.close
  split_ifs <;> rfl

/-- C23. send_state returns exactly when m_info is set with a hash and a
local id of 20 bytes each; the url it then hands to the request is a head
followed by "&uploaded=" and the decimal of down*10 modulo 2^64, "&downloaded="
and the decimal of up, "&left=" and the decimal of left, and last the event
text: "&event=started", "&event=stopped" or "&event=completed" for STARTED,
STOPPED and COMPLETED, nothing for any other state. -/
theorem send_state_query (escape : String → String) (cm : ConnectionManager)
    (t : TrackerHttp) (state : State) (down up left : Nat) :
    ((t.send_state escape cm state down up left).1 = .ok () ↔
      ∃ info, t.m_info = some info ∧ info.local_id.length = 20 ∧ info.hash.length = 20) ∧
    ((t.send_state escape cm state down up left).1 = .ok () →
      ∃ head, (t.send_state escape cm state down up left).2.get_url =
        head ++ ("&uploaded=" ++ (toString (down * 10 % 2 ^ 64) ++ ("&downloaded=" ++
          (toString up ++ ("&left=" ++ (toString left ++ event_text state))))))) ∧
    event_text .STARTED = "&event=started" ∧ event_text .STOPPED = "&event=stopped" ∧
    event_text .COMPLETED = "&event=completed" ∧ (∀ v, event_text (.other v) = "") := by
  have hinfo := close_keeps_info t
  refine ⟨?_, ?_, rfl, rfl, rfl, fun _ => rfl⟩
  · unfold TrackerHttp.send_state
    rw [hinfo]
    cases hi : t.m_info with
    | none => simp
    | some info =>
      by_cases h1 : info.local_id.length = 20
      · by_cases h2 : info.hash.length = 20
        · simp [h1, h2]
        · simp [h1, h2]
      · simp [h1]
  · unfold TrackerHttp.send_state
    rw [hinfo]
    cases hi : t.m_info with
    | none => simp
    | some info =>
      by_cases h : (info.local_id.length ≠ 20 || info.hash.length ≠ 20) = true
      · simp only [h, if_true]
        intro hc
        simp at hc
      · simp only [h, if_false]
        intro _
        refine ⟨announce_head escape cm t.close info, ?_⟩
        simp only [String.append_assoc, Bool.false_eq_true, if_false]

/-- Witness of C23: a completed announce with 7 bytes down, 3 up, 0 left. -/
theorem send_state_query_witness :
    ∃ head, (tracker_idle.send_state id ⟨none, 6881⟩ .COMPLETED 7 3 0).2.get_url =
      head ++ ("&uploaded=" ++ (toString (7 * 10 % 2 ^ 64) ++ ("&downloaded=" ++
        (toString 3 ++ ("&left=" ++ (toString 0 ++ event_text .COMPLETED)))))) :=
  (send_state_query id ⟨none, 6881⟩ tracker_idle .COMPLETED 7 3 0).2.1 (by decide)

/-! ## `parse_address` -/

/-- C25. parse_address returns the parsed address of the ip with the port
exactly when the object is a map with a string under "ip" that parses and an
integer under "port" with 0 < port < 65536; for every other object the port
of the result is unset (0). The port of the result is always below 65536. -/
theorem parse_address_spec (parse : String → Option Nat) (b : Object) :
    ((∃ ip a port, b.is_map = true ∧ b.key_string "ip" = some ip ∧ parse ip = some a ∧
        b.key_value "port" = some port ∧ 0 < port ∧ port < 65536 ∧
        parse_address parse b = { address := some a, port := port.toNat }) ∨
      ((parse_address parse b).port = 0 ∧
        ¬ ∃ ip a port, b.is_map = true ∧ b.key_string "ip" = some ip ∧ parse ip = some a ∧
          b.key_value "port" = some port ∧ 0 < port ∧ port < 65536)) ∧
    (parse_address parse b).port < 65536 := by
  unfold parse_address
  by_cases hm : b.is_map = true
  swap
  · simp [hm]
  cases hip : b.key_string "ip" with
  | none => simp [hm]
  | some ip =>
    cases hp : parse ip with
    | none => simp [hm, hp]
    | some a =>
      cases hport : b.key_value "port" with
      | none => simp [hm, hp]
      | some port =>
        by_cases hr : 0 < port ∧ port < 65536
        · have hif : (decide (port ≤ 0) || decide (port ≥ 2 ^ 16)) = false := by
            simp only [Bool.or_eq_false_iff, decide_eq_false_iff_not]
            omega
          have hmod : (port % 2 ^ 16).toNat = port.toNat := by
            rw [Int.emod_eq_of_lt (by omega) (by omega)]
          simp only [hm, Bool.not_true, Bool.false_eq_true, if_false, hp, hif, hmod]
          refine ⟨Or.inl ⟨ip, a, port, trivial, rfl, hp, rfl, hr.1, hr.2, rfl⟩, ?_⟩
          show port.toNat < 65536
          omega
        · have hif : (decide (port ≤ 0) || decide (port ≥ 2 ^ 16)) = true := by
            simp only [Bool.or_eq_true, decide_eq_true_eq]
            omega
          simp only [hm, Bool.not_true, Bool.false_eq_true, if_false, hp, hif, if_true]
          refine ⟨Or.inr ⟨trivial, ?_⟩, by decide⟩
          rintro ⟨ip', a', port', _, h1, h2, h3, h4, h5⟩
          simp only [Option.some.injEq] at h1 h3
          subst h1 h3
          exact hr ⟨h4, h5⟩

/-- Witness of C25: the peer 10.0.0.1 with port 6881. -/
theorem parse_address_spec_witness :
    parse_address parse_one peer_ok = { address := some 167772161, port := 6881 } ∧
    (parse_address parse_one peer_ok).port < 65536 :=
  ⟨by decide, (parse_address_spec parse_one peer_ok).2⟩

end Torrent
